import Mathlib

/-!
The ACLK query queue and its workers (`aclk/legacy/aclk_query.c`).

A shallow embedding of the query queue of the agent-cloud link: the records
live in an explicit heap, the queue is the singly linked list that starts at
`aclk_query_head`, and every function of the source is a function on that
state.  Dereferencing a freed record, comparing against a `NULL` string and
a loop that does not end are reported as a `Fault`.
-/

deriving instance DecidableEq for Except

namespace AclkQuery

/-! ## Data model -/

/-- Modelled from the spec: the declaration of the enumeration `ACLK_CMD`
(header `aclk_query.h`) is missing.  The constructors are
the command kinds that `aclk_query.c` names; `other` stands for any further
enumerator value. -/
inductive ACLK_CMD where
  | ACLK_CMD_CLOUD
  | ACLK_CMD_ONCONNECT
  | ACLK_CMD_CHART
  | ACLK_CMD_CHARTDEL
  | ACLK_CMD_ALARM
  | ACLK_CMD_CLOUD_QUERY_2
  | ACLK_CMD_CHILD_CONNECT
  | ACLK_CMD_CHILD_DISCONNECT
  | other (code : Nat)
  deriving DecidableEq, Repr

/-- The fields of `struct aclk_query` that the queue reads, the link `next`
left out.  `data` is an opaque pointer (`0` is `NULL`); `msg_id` and `query`
are `none` when the C pointer is `NULL`.  The time stamps `created`, `tv_in`,
`created_boot_time` and the worker index `idx` are written but never read by
the queue and are not modelled. -/
structure query_fields where
  run_after : Int
  cmd : ACLK_CMD
  topic : String
  data : Nat
  msg_id : Option String
  query : Option String
  deleted : Bool
  deriving DecidableEq, Repr

/-- The record `struct aclk_query`: its fields and the pointer `next` to the
following record (`none` is `NULL`). -/
structure aclk_query extends query_fields where
  next : Option Nat
  deriving DecidableEq, Repr

/-- The ways in which the C code leaves defined behaviour. -/
inductive Fault where
  /-- a freed or never allocated record is dereferenced -/
  | invalid_pointer
  /-- `strcmp` is handed a `NULL` string -/
  | null_string
  /-- a loop does not come to an end (the links form a cycle) -/
  | no_termination
  deriving DecidableEq, Repr

/-- The heap of query records: cell `p` is `some r` while the record at
address `p` is allocated and `none` once it is freed.  `callocz` takes the
next unused address, so no address is handed out twice. -/
abbrev Heap := List (Option aclk_query)

/-- The global `aclk_queue` (`struct aclk_query_queue`) together with the heap
that holds the records. -/
structure QueueState where
  heap : Heap
  aclk_query_head : Option Nat
  aclk_query_tail : Option Nat
  count : Nat
  deriving DecidableEq, Repr

/-- The initial value of `aclk_queue`: no record, `count = 0`. -/
def aclk_queue_init : QueueState :=
  { heap := [], aclk_query_head := none, aclk_query_tail := none, count := 0 }

/-- The record stored at address `p`, if one is allocated there. -/
def deref (h : Heap) (p : Nat) : Option aclk_query :=
  (h[p]?).join

/-- Reading through the pointer `p`. -/
def load (h : Heap) (p : Nat) : Except Fault aclk_query :=
  match deref h p with
  | some r => .ok r
  | none => .error .invalid_pointer

/-- `count--` on an `unsigned int`: `c - 1` modulo `2 ^ 32`. -/
def count_dec (c : Nat) : Nat := (4294967295 + c) % 4294967296

/-- `count++` on an `unsigned int`: `c + 1` modulo `2 ^ 32`. -/
def count_inc (c : Nat) : Nat := (c + 1) % 4294967296

/-- Conversion of a `time_t` value to the 32 bit `int` parameter
`run_after`. -/
def to_int (x : Int) : Int := (x + 2147483648) % 4294967296 - 2147483648

/-! ## Queue operations -/

/-- `aclk_query_size`: the current value of `count`. -/
def aclk_query_size (s : QueueState) : Nat := s.count

/-- `aclk_query_free`: releases the record (a `NULL` argument is ignored). -/
def aclk_query_free (h : Heap) : Option Nat → Except Fault Heap
  | none => .ok h
  | some p =>
    match load h p with
    | .error e => .error e
    | .ok _ => .ok (h.set p none)

/-- The loop of `aclk_queue_pop` that removes the deleted entries at the head
(`this_query` is the head of the queue whenever the loop condition is
evaluated). -/
def pop_purge : Nat → QueueState → Except Fault QueueState
  | 0, _ => .error .no_termination
  | fuel + 1, s =>
    match s.aclk_query_head with
    | none => .ok s
    | some p =>
      match load s.heap p with
      | .error e => .error e
      | .ok r =>
        if r.deleted then
          match aclk_query_free s.heap (some p) with
          | .error e => .error e
          | .ok h =>
            pop_purge fuel
              { heap := h
                aclk_query_head := r.next
                aclk_query_tail := if r.next = none then none else s.aclk_query_tail
                count := count_dec s.count }
        else .ok s

/-- `aclk_queue_pop` at clock value `now` (`now_realtime_sec()`): the record
handed to the caller (`none` is `NULL`) and the queue afterwards. -/
def aclk_queue_pop (now : Int) (s : QueueState) : Except Fault (Option Nat × QueueState) :=
  match s.aclk_query_head with
  | none => .ok (none, s)
  | some _ =>
    match pop_purge (s.heap.length + 1) s with
    | .error e => .error e
    | .ok s1 =>
      match s1.aclk_query_head with
      | none => .ok (none, s1)
      | some p =>
        match load s1.heap p with
        | .error e => .error e
        | .ok r =>
          if !r.deleted && decide (r.run_after > now) then .ok (none, s1)
          else
            .ok (some p,
              { s1 with
                count := count_dec s1.count
                aclk_query_head := r.next
                aclk_query_tail := if r.next = none then none else s1.aclk_query_tail })

/-- The scan of `aclk_query_find_position` from `tmp_query` on, `last_query`
being the record seen before it. -/
def find_position_scan (h : Heap) (time_to_run : Int) :
    Nat → Option Nat → Option Nat → Except Fault (Option Nat)
  | 0, _, _ => .error .no_termination
  | _ + 1, none, last_query => .ok last_query
  | fuel + 1, some p, last_query =>
    match load h p with
    | .error e => .error e
    | .ok r =>
      if r.run_after > time_to_run then .ok last_query
      else find_position_scan h time_to_run fuel r.next (some p)

/-- `aclk_query_find_position`: the record after which a record due at
`time_to_run` is linked, `none` when it goes to the head. -/
def aclk_query_find_position (s : QueueState) (time_to_run : Int) :
    Except Fault (Option Nat) :=
  let scan := find_position_scan s.heap time_to_run (s.heap.length + 1) s.aclk_query_head none
  match s.aclk_query_tail with
  | none => scan
  | some t =>
    match load s.heap t with
    | .error e => .error e
    | .ok r => if r.run_after ≤ time_to_run then .ok (some t) else scan

/-- `strcmp(stored, arg) == 0`; both strings have to be there. -/
def strcmp_eq (stored : Option String) (arg : String) : Except Fault Bool :=
  match stored with
  | none => .error .null_string
  | some x => .ok (decide (x = arg))

/-- The test of `aclk_query_find` on one record that is not deleted, with the
short-circuit evaluation of the C conditions. -/
def query_matches (topic : String) (data : Nat) (msg_id query : Option String)
    (r : query_fields) : Except Fault Bool :=
  if r.topic = topic then
    match (match query with
           | none => Except.ok true
           | some q => strcmp_eq r.query q) with
    | .error e => .error e
    | .ok false => .ok false
    | .ok true =>
      if data = 0 ∨ data = r.data then
        match msg_id with
        | none => .ok true
        | some m => strcmp_eq r.msg_id m
      else .ok false
  else .ok false

/-- The loop of `aclk_query_find` from `tmp_query` on, `prev_query` being the
record seen before it.  The result is the record found together with the value
stored through `last_query`. -/
def find_scan (h : Heap) (topic : String) (data : Nat) (msg_id query : Option String) :
    Nat → Option Nat → Option Nat → Except Fault (Option (Nat × Option Nat))
  | 0, _, _ => .error .no_termination
  | _ + 1, none, _ => .ok none
  | fuel + 1, some p, prev_query =>
    match load h p with
    | .error e => .error e
    | .ok r =>
      match (if r.deleted then Except.ok false
             else query_matches topic data msg_id query r.toquery_fields) with
      | .error e => .error e
      | .ok true => .ok (some (p, prev_query))
      | .ok false => find_scan h topic data msg_id query fuel r.next (some p)

/-- `aclk_query_find`: the first record that is not deleted and matches, with
its predecessor.  The command kind is not looked at (`UNUSED(cmd)`). -/
def aclk_query_find (s : QueueState) (topic : String) (data : Nat)
    (msg_id query : Option String) (_cmd : ACLK_CMD) :
    Except Fault (Option (Nat × Option Nat)) :=
  find_scan s.heap topic data msg_id query (s.heap.length + 1) s.aclk_query_head none

/-- The part of `aclk_queue_query` that takes the double entry `tmp_query` out
of the list and frees it. -/
def remove_double (s : QueueState) (tmp_query : Nat) (last_query : Option Nat) :
    Except Fault QueueState :=
  match load s.heap tmp_query with
  | .error e => .error e
  | .ok r =>
    match (match last_query with
           | some l =>
             match load s.heap l with
             | .error e => Except.error e
             | .ok rl =>
               Except.ok { s with heap := s.heap.set l (some { rl with next := r.next }) }
           | none => Except.ok { s with aclk_query_head := r.next }) with
    | .error e => .error e
    | .ok s1 =>
      match aclk_query_free s1.heap (some tmp_query) with
      | .error e => .error e
      | .ok h => .ok { s1 with heap := h, count := count_dec s1.count }

/-- The record that `aclk_queue_query` fills in after `callocz`: an internal
caller gets copies of `topic` and `query` and no `msg_id`, any other caller
hands its strings over. -/
def new_query_fields (topic : String) (data : Nat) (msg_id query : Option String)
    (run_after : Int) (internal : Bool) (aclk_cmd : ACLK_CMD) : query_fields :=
  { run_after := run_after
    cmd := aclk_cmd
    topic := topic
    data := data
    msg_id := if internal then none else msg_id
    query := query
    deleted := false }

/-- The part of `aclk_queue_query` that allocates the new record and links it
at the place `aclk_query_find_position` gives. -/
def link_new (s : QueueState) (f : query_fields) : Except Fault QueueState :=
  let new_query := s.heap.length
  let s1 : QueueState := { s with heap := s.heap ++ [some { toquery_fields := f, next := none }] }
  match aclk_query_find_position s1 f.run_after with
  | .error e => .error e
  | .ok (some tmp_query) =>
    match load s1.heap tmp_query with
    | .error e => .error e
    | .ok r =>
      let h1 := s1.heap.set new_query (some { toquery_fields := f, next := r.next })
      let h2 := h1.set tmp_query (some { r with next := some new_query })
      .ok { heap := h2
            aclk_query_head := s1.aclk_query_head
            aclk_query_tail :=
              if some tmp_query = s1.aclk_query_tail then some new_query else s1.aclk_query_tail
            count := count_inc s1.count }
  | .ok none =>
    let h1 := s1.heap.set new_query (some { toquery_fields := f, next := s1.aclk_query_head })
    .ok { heap := h1
          aclk_query_head := some new_query
          aclk_query_tail := s1.aclk_query_tail
          count := count_inc s1.count }

/-- `aclk_queue_query`: the value returned and the queue afterwards.
`aclk_connected` is the global flag and `now` the value of
`now_realtime_sec()`. -/
def aclk_queue_query (aclk_connected : Bool) (now : Int) (topic : String) (data : Nat)
    (msg_id query : Option String) (run_after : Int) (internal : Bool) (aclk_cmd : ACLK_CMD)
    (s : QueueState) : Except Fault (Int × QueueState) :=
  if !aclk_connected then .ok (1, s)
  else
    let run_after := to_int (now + run_after)
    match aclk_query_find s topic data msg_id query aclk_cmd with
    | .error e => .error e
    | .ok found =>
      match (match found with
             | none => Except.ok (some s)
             | some (tmp_query, last_query) =>
               match load s.heap tmp_query with
               | .error e => Except.error e
               | .ok r =>
                 if r.run_after = run_after then Except.ok none
                 else
                   match remove_double s tmp_query last_query with
                   | .error e => Except.error e
                   | .ok s1 => Except.ok (some s1)) with
      | .error e => .error e
      | .ok none => .ok (0, s)
      | .ok (some s1) =>
        match link_new s1
            (new_query_fields topic data msg_id query run_after internal aclk_cmd) with
        | .error e => .error e
        | .ok s2 => .ok (0, s2)

/-- Setting the `deleted` flag of the record at `p` (the queue itself never
does this; it is the tombstone other code may leave). -/
def mark_deleted (s : QueueState) (p : Nat) : Except Fault QueueState :=
  match load s.heap p with
  | .error e => .error e
  | .ok r => .ok { s with heap := s.heap.set p (some { r with deleted := true }) }

/-- The loop at the end of `aclk_query_threads_cleanup`: pop and free until
`aclk_queue_pop` gives `NULL`.  `clock i` is the value of `now_realtime_sec()`
in round `i`. -/
def cleanup_loop (clock : Nat → Int) : Nat → Nat → QueueState → Except Fault QueueState
  | 0, _, _ => .error .no_termination
  | fuel + 1, i, s =>
    match aclk_queue_pop (clock i) s with
    | .error e => .error e
    | .ok (this_query, s1) =>
      match aclk_query_free s1.heap this_query with
      | .error e => .error e
      | .ok h =>
        match this_query with
        | none => .ok { s1 with heap := h }
        | some _ => cleanup_loop clock fuel (i + 1) { s1 with heap := h }

/-- `aclk_query_threads_cleanup`, after the worker threads are joined. -/
def aclk_query_threads_cleanup (clock : Nat → Int) (s : QueueState) : Except Fault QueueState :=
  cleanup_loop clock (s.heap.length + 1) 0 s

/-! ## The list the queue stands for -/

/-- The records linked from the pointer `p` up to the `NULL` link are, in
order, the entries of the list: each entry is an address with the fields of
the record stored there. -/
def Chain (h : Heap) : Option Nat → List (Nat × query_fields) → Prop
  | p, [] => p = none
  | p, x :: l =>
    p = some x.1 ∧ ∃ r, deref h x.1 = some r ∧ r.toquery_fields = x.2 ∧ Chain h r.next l

/-- The search of `aclk_query_find` on the list of linked records. -/
def find_list (topic : String) (data : Nat) (msg_id query : Option String) :
    List (Nat × query_fields) → Option Nat → Except Fault (Option (Nat × Option Nat))
  | [], _ => .ok none
  | x :: l, prev_query =>
    match (if x.2.deleted then Except.ok false
           else query_matches topic data msg_id query x.2) with
    | .error e => .error e
    | .ok true => .ok (some (x.1, prev_query))
    | .ok false => find_list topic data msg_id query l (some x.1)

/-- The scan of `aclk_query_find_position` on the list of linked records. -/
def position_list (time_to_run : Int) :
    List (Nat × query_fields) → Option Nat → Option Nat
  | [], last_query => last_query
  | x :: l, last_query =>
    if x.2.run_after > time_to_run then last_query
    else position_list time_to_run l (some x.1)

/-- The list after a record is linked behind the leading records that are due
no later than it. -/
def insert_list (x : Nat × query_fields) (l : List (Nat × query_fields)) :
    List (Nat × query_fields) :=
  l.takeWhile (fun y => decide (y.2.run_after ≤ x.2.run_after)) ++
    x :: l.dropWhile (fun y => decide (y.2.run_after ≤ x.2.run_after))

/-- The successive calls `aclk_queue_pop` at the clock values of the list: the
records handed out, in the order of the calls, and the queue afterwards. -/
def pop_many : List Int → QueueState → Except Fault (List (Nat × query_fields) × QueueState)
  | [], s => .ok ([], s)
  | now :: clock, s =>
    match aclk_queue_pop now s with
    | .error e => .error e
    | .ok (none, s1) => pop_many clock s1
    | .ok (some p, s1) =>
      match load s1.heap p with
      | .error e => .error e
      | .ok r =>
        match pop_many clock s1 with
        | .error e => .error e
        | .ok (rs, s2) => .ok ((p, r.toquery_fields) :: rs, s2)

/-- The states the queue can be in: it starts empty, `aclk_queue_query` and
`aclk_queue_pop` run at any clock value, a linked record may be marked deleted,
and a record that is no longer linked may be freed by the worker that got it
from `aclk_queue_pop`. -/
inductive Reachable : QueueState → Prop where
  | init : Reachable aclk_queue_init
  | enqueue (s s1 : QueueState) (aclk_connected : Bool) (now : Int) (topic : String)
      (data : Nat) (msg_id query : Option String) (run_after : Int) (internal : Bool)
      (cmd : ACLK_CMD) (rc : Int) :
      Reachable s →
      aclk_queue_query aclk_connected now topic data msg_id query run_after internal cmd s
        = .ok (rc, s1) →
      Reachable s1
  | pop (s s1 : QueueState) (now : Int) (this_query : Option Nat) :
      Reachable s → aclk_queue_pop now s = .ok (this_query, s1) → Reachable s1
  | delete (s s1 : QueueState) (l : List (Nat × query_fields)) (x : Nat × query_fields) :
      Reachable s → Chain s.heap s.aclk_query_head l → x ∈ l →
      mark_deleted s x.1 = .ok s1 → Reachable s1
  | free (s : QueueState) (h : Heap) (l : List (Nat × query_fields)) (p : Nat) :
      Reachable s → Chain s.heap s.aclk_query_head l → p ∉ l.map Prod.fst →
      aclk_query_free s.heap (some p) = .ok h → Reachable { s with heap := h }

/-- The linked records are in the order of their `run_after`. -/
def Ordered (l : List (Nat × query_fields)) : Prop :=
  l.Pairwise (fun x y => x.2.run_after ≤ y.2.run_after)

/-- The key that the deduplication of the spec speaks of. -/
def key_of (f : query_fields) : String × Nat × Option String × Option String :=
  (f.topic, f.data, f.msg_id, f.query)

/-- The record is not deleted and has the key `k`. -/
def live_with_key (k : String × Nat × Option String × Option String)
    (x : Nat × query_fields) : Bool :=
  !x.2.deleted && decide (key_of x.2 = k)

/-- The entry of the list after the record at address `a` is marked
deleted. -/
def mark_entry (a : Nat) (y : Nat × query_fields) : Nat × query_fields :=
  if y.1 = a then (y.1, { y.2 with deleted := true }) else y

/-- What holds of every reachable queue whose linked records are `l`: the
tail pointer is not set, the records are in the order of their `run_after`,
`count` is their number (as an `unsigned int`), and no key with all of data
pointer, `msg_id` and query present is held by two records that are not
deleted. -/
def QueueInv (s : QueueState) (l : List (Nat × query_fields)) : Prop :=
  Chain s.heap s.aclk_query_head l ∧ s.aclk_query_tail = none ∧ Ordered l ∧
  s.count = l.length % 4294967296 ∧
  ∀ (t : String) (d : Nat) (m q : String), d ≠ 0 →
    l.countP (live_with_key (t, d, some m, some q)) ≤ 1

/-- The queue after one alarm is queued at clock value 0 with a delay of 5
seconds. -/
def one_alarm_queue : QueueState :=
  { heap := [some { run_after := 5, cmd := .ACLK_CMD_ALARM, topic := "alarm/1", data := 0,
                    msg_id := none, query := some "alarm text", deleted := false,
                    next := none }]
    aclk_query_head := some 0
    aclk_query_tail := none
    count := 1 }

/-- The fields of a chart update for the chart `system.cpu`, queued by an
internal caller for the host at `data`. -/
def chart_fields (data : Nat) (run_after : Int) : query_fields :=
  { run_after := run_after, cmd := .ACLK_CMD_CHART, topic := "_chart", data := data,
    msg_id := none, query := some "system.cpu", deleted := false }

/-- The queue after two chart updates for `system.cpu` are queued at clock
value 0: first one without a host pointer and a delay of 20 seconds, then one
for the host at address 4096 with a delay of 10 seconds. -/
def chart_queue_mixed : QueueState :=
  { heap := [some { toquery_fields := chart_fields 0 20, next := none },
             some { toquery_fields := chart_fields 4096 10, next := some 0 }]
    aclk_query_head := some 1
    aclk_query_tail := none
    count := 2 }

/-- The queue `chart_queue_mixed` after a further chart update without a host
pointer is queued that is due at `run_after`. -/
def chart_queue_double (run_after : Int) : QueueState :=
  { heap := [some { toquery_fields := chart_fields 0 20, next := some 2 },
             none,
             some { toquery_fields := chart_fields 0 run_after, next := none }]
    aclk_query_head := some 0
    aclk_query_tail := none
    count := 2 }

/-- The fields of a cloud query that arrived with the message id `m1`. -/
def cloud_fields (run_after : Int) : query_fields :=
  { run_after := run_after, cmd := .ACLK_CMD_CLOUD_QUERY_2, topic := "inbox/cmd",
    data := 8192, msg_id := some "m1", query := some "/api/v1/info", deleted := false }

/-- The queue after that cloud query is queued at clock value 0 without
delay. -/
def cloud_queue : QueueState :=
  { heap := [some { toquery_fields := cloud_fields 0, next := none }]
    aclk_query_head := some 0
    aclk_query_tail := none
    count := 1 }

/-- The fields of the alarm held by `one_alarm_queue`. -/
def alarm_fields (run_after : Int) : query_fields :=
  { run_after := run_after, cmd := .ACLK_CMD_ALARM, topic := "alarm/1", data := 0,
    msg_id := none, query := some "alarm text", deleted := false }

/-- The queue `one_alarm_queue` after its record is marked deleted. -/
def deleted_alarm_queue : QueueState :=
  { heap := [some { toquery_fields := { alarm_fields 5 with deleted := true }, next := none }]
    aclk_query_head := some 0
    aclk_query_tail := none
    count := 1 }

/-- The queue `chart_queue_mixed` after a third chart update is queued at
clock value 0, for the host at address 12288 with a delay of 15 seconds: the
scan of `aclk_query_find_position` passes the record due at 10 and stops at the
record due at 20, so the new record is linked between the two. -/
def chart_queue_three : QueueState :=
  { heap := [some { toquery_fields := chart_fields 0 20, next := none },
             some { toquery_fields := chart_fields 4096 10, next := some 2 },
             some { toquery_fields := chart_fields 12288 15, next := some 0 }]
    aclk_query_head := some 1
    aclk_query_tail := none
    count := 3 }

/-- The queue `chart_queue_three` after its first record (due at 10) is marked
deleted. -/
def chart_queue_tombstone : QueueState :=
  { heap := [some { toquery_fields := chart_fields 0 20, next := none },
             some { toquery_fields := { chart_fields 4096 10 with deleted := true },
                    next := some 2 },
             some { toquery_fields := chart_fields 12288 15, next := some 0 }]
    aclk_query_head := some 1
    aclk_query_tail := none
    count := 3 }

/-- The queue `chart_queue_tombstone` after `aclk_queue_pop` has freed the
deleted record at its head. -/
def chart_queue_purged : QueueState :=
  { heap := [some { toquery_fields := chart_fields 0 20, next := none },
             none,
             some { toquery_fields := chart_fields 12288 15, next := some 0 }]
    aclk_query_head := some 2
    aclk_query_tail := none
    count := 2 }

/-- The fields of a second cloud query, for the same host, that arrived with
the message id `m2`. -/
def charts_fields (run_after : Int) : query_fields :=
  { run_after := run_after, cmd := .ACLK_CMD_CLOUD_QUERY_2, topic := "inbox/cmd",
    data := 8192, msg_id := some "m2", query := some "/api/v1/charts", deleted := false }

/-- The queue `cloud_queue` after the second cloud query is queued at clock
value 0 with a delay of 5 seconds. -/
def cloud_queue_pair : QueueState :=
  { heap := [some { toquery_fields := cloud_fields 0, next := some 1 },
             some { toquery_fields := charts_fields 5, next := none }]
    aclk_query_head := some 0
    aclk_query_tail := none
    count := 2 }

/-- The queue `cloud_queue_pair` after the first cloud query (message id `m1`)
is queued once more at clock value 0, now with a delay of 7 seconds:
`aclk_query_find` finds the record of the first call, which is unlinked and
freed, and the new record is linked behind the second query. -/
def cloud_queue_requeued : QueueState :=
  { heap := [none,
             some { toquery_fields := charts_fields 5, next := some 2 },
             some { toquery_fields := cloud_fields 7, next := none }]
    aclk_query_head := some 1
    aclk_query_tail := none
    count := 2 }

/-- Modelled from the spec: the helper `to_hex` of libnetdata is
missing.  By the spec the escape `\u00XX` shows "the
uppercase hex of the byte", so `to_hex` gives the uppercase hexadecimal digit
(as a character code) of the low nibble of its argument. -/
def to_hex (code : Nat) : Nat :=
  if code % 16 < 10 then 48 + code % 16 else 55 + code % 16

/-- One round of the loop of `aclk_encode_response`: the bytes stored through
`dst` for the source byte `c` (the `switch`).  Bytes are numbers below 256; a
`char` of 128 or more is negative in C and takes the `default` branch, as it
does here. -/
def encode_step (c : Nat) (keep_newlines : Bool) : List Nat :=
  if c = 10 then (if keep_newlines then [92, 110] else [])
  else if c = 9 then []
  else if (1 ≤ c ∧ c ≤ 8) ∨ (11 ≤ c ∧ c ≤ 31) then
    [92, 117, 48, 48, if c < 15 then 48 else 49, to_hex c]
  else if c = 34 then [92, c]
  else [c]

/-- The loop of `aclk_encode_response` over the bytes of `src` that are left,
`dst` being what is written so far. -/
def encode_loop (keep_newlines : Bool) : List Nat → List Nat → List Nat
  | [], dst => dst
  | c :: src, dst => encode_loop keep_newlines src (dst ++ encode_step c keep_newlines)

/-- `aclk_encode_response`: all the bytes written to the new buffer, in the
order of the writes, the closing `'\0'` included (`content_size` is the length
of `src`, `keep_newlines` is true for a non-zero flag). -/
def aclk_encode_response (src : List Nat) (keep_newlines : Bool) : List Nat :=
  encode_loop keep_newlines src [] ++ [0]

/-- The size of the buffer that `aclk_encode_response` allocates:
`mallocz(content_size * 2)`. -/
def encode_buffer_size (content_size : Nat) : Nat := content_size * 2

/-- The C string held by a buffer: the bytes before the first `'\0'`. -/
def c_string (buffer : List Nat) : List Nat :=
  buffer.takeWhile (fun c => decide (c ≠ 0))

/-- The value of a hexadecimal digit. -/
def hex_value (c : Nat) : Option Nat :=
  if 48 ≤ c ∧ c ≤ 57 then some (c - 48)
  else if 65 ≤ c ∧ c ≤ 70 then some (c - 55)
  else if 97 ≤ c ∧ c ≤ 102 then some (c - 87)
  else none

/-- The bytes (UTF-8) of a code point named by a `\uXXXX` escape. -/
def utf8_bytes (n : Nat) : List Nat :=
  if n < 128 then [n]
  else if n < 2048 then [192 + n / 64, 128 + n % 64]
  else [224 + n / 4096, 128 + n / 64 % 64, 128 + n % 64]

/-- A standard decoder for the characters of a JSON string (RFC 8259,
section 7), the one the round-trip claim of the spec speaks of: what stands
between the quotes is read byte by byte, the two-character escapes and
`\uXXXX` are resolved, and a bare quote, a bare control character or a broken
escape is rejected. -/
def json_string_decode : List Nat → Option (List Nat)
  | [] => some []
  | 92 :: 117 :: a :: b :: c :: d :: rest =>
    match hex_value a, hex_value b, hex_value c, hex_value d, json_string_decode rest with
    | some x, some y, some z, some w, some out =>
      some (utf8_bytes (((x * 16 + y) * 16 + z) * 16 + w) ++ out)
    | _, _, _, _, _ => none
  | 92 :: e :: rest =>
    match (if e = 34 then some 34 else if e = 92 then some 92 else if e = 47 then some 47
           else if e = 98 then some 8 else if e = 102 then some 12 else if e = 110 then some 10
           else if e = 114 then some 13 else if e = 116 then some 9 else none),
          json_string_decode rest with
    | some x, some out => some (x :: out)
    | _, _ => none
  | c :: rest =>
    if c < 32 ∨ c = 34 ∨ c = 92 then none
    else
      match json_string_decode rest with
      | some out => some (c :: out)
      | none => none

/-- What the round-trip claim says the decoded output is: the input without
its tabs, and without its newlines unless the flag keeps them. -/
def round_trip_expected (src : List Nat) (keep_newlines : Bool) : List Nat :=
  src.filter (fun c => decide (c ≠ 9) && (keep_newlines || decide (c ≠ 10)))

/-! ## Popcorning and version negotiation -/

/-- Modelled from the spec: the declaration of the enumeration
`ACLK_POPCORNING_STATE` (a header of the daemon) is missing; by the spec a
host is `INITIALIZING` or `STABLE`. -/
inductive ACLK_POPCORNING_STATE where
  | ACLK_HOST_INITIALIZING
  | ACLK_HOST_STABLE
  deriving DecidableEq, Repr

/-- The part of `host->aclk_state` that `aclk_host_popcorn_check` reads and
writes. -/
structure popcorn_state where
  state : ACLK_POPCORNING_STATE
  t_last_popcorn_update : Int
  deriving DecidableEq, Repr

/-- `aclk_host_popcorn_check` at the clock value `now` (`now_monotonic_sec()`):
the value returned and the state of the host afterwards.  `ACLK_STABLE_TIMEOUT`
is a constant of `aclk_common.h` and is taken as a parameter. -/
def aclk_host_popcorn_check (ACLK_STABLE_TIMEOUT : Int) (now : Int) (host : popcorn_state) :
    ACLK_POPCORNING_STATE × popcorn_state :=
  let ret := host.state
  if host.state ≠ .ACLK_HOST_INITIALIZING then (ret, host)
  else if host.t_last_popcorn_update = 0 then (ret, host)
  else
    let t_diff := now - host.t_last_popcorn_update
    if t_diff ≥ ACLK_STABLE_TIMEOUT then
      (.ACLK_HOST_STABLE,
        { state := .ACLK_HOST_STABLE, t_last_popcorn_update := 0 })
    else (ret, host)

/-- The part of `aclk_shared_state` that the negotiation step of
`aclk_query_main_thread` reads and writes: the version (0 while unset) and
the deadline in microseconds of the monotonic clock. -/
structure shared_state where
  version_neg : Int
  version_neg_wait_till : Nat
  deriving DecidableEq, Repr

/-- The negotiation step of the loop of `aclk_query_main_thread` at the clock
value `now` (`now_monotonic_usec()`): the shared state afterwards, and whether
the round goes on (`true`) or sleeps and starts over (`false`, the `continue`).
`ACLK_VERSION_MIN` is a constant of `aclk_common.h` and is taken as a
parameter. -/
def negotiation_step (ACLK_VERSION_MIN : Int) (now : Nat) (st : shared_state) :
    shared_state × Bool :=
  if st.version_neg = 0 then
    if st.version_neg_wait_till = 0 ∨ st.version_neg_wait_till > now then (st, false)
    else ({ st with version_neg := ACLK_VERSION_MIN }, true)
  else (st, true)

/-! ## Command dispatch -/

/-- Modelled from the spec: the declaration of the enumeration
`ACLK_METADATA_STATE` (a header of the daemon) is missing; the constructors are the
three values that `aclk_query.c` names (`REQUIRED`, `QUEUED`, `SENT` in the
spec). -/
inductive ACLK_METADATA_STATE where
  | ACLK_METADATA_REQUIRED
  | ACLK_METADATA_CMD_QUEUED
  | ACLK_METADATA_SENT
  deriving DecidableEq, Repr

/-- The calls by which `aclk_process_query` hands work to the senders and
executors, which are outside this file; each call is recorded with its
arguments (a host is the address in the `data` pointer of the record). -/
inductive Outbound where
  /-- `aclk_send_metadata(meta_state, host)` -/
  | send_metadata (meta_state : ACLK_METADATA_STATE) (host : Nat)
  /-- `aclk_send_single_chart(host, this_query->query)` -/
  | send_single_chart (host : Nat) (chart : Option String)
  /-- `aclk_send_info_metadata(ACLK_METADATA_SENT, host)` -/
  | send_info_metadata (meta_state : ACLK_METADATA_STATE) (host : Nat)
  /-- `aclk_send_message(topic, query, msg_id)` -/
  | send_message (topic : String) (message : Option String) (msg_id : Option String)
  /-- `aclk_execute_query(this_query)` -/
  | execute_query (this_query : query_fields)
  /-- `aclk_execute_query_v2(this_query)` -/
  | execute_query_v2 (this_query : query_fields)
  /-- `aclk_send_info_child_connection(host, cmd)` -/
  | send_info_child_connection (host : Nat) (cmd : ACLK_CMD)
  deriving DecidableEq, Repr

/-- What `aclk_process_query` works on: the queue, the Metadata Push State
`host->aclk_state.metadata` of every host, and the calls made to the senders
so far, oldest first. -/
structure DispatchState where
  queue : QueueState
  metadata : Nat → ACLK_METADATA_STATE
  sent : List Outbound

/-- The `switch` of `aclk_process_query` for the record `r` whose `data`
pointer is read as the host: the Metadata Push States and the calls
afterwards.  `ACLK_VERSION_MIN` and `ACLK_V_CHILDRENSTATE` are constants of
`aclk_common.h` and are taken as parameters;
the version test of `ACLK_CMD_ONCONNECT` is compiled only when
`ACLK_VERSION_MIN < ACLK_V_CHILDRENSTATE`. -/
def dispatch (localhost : Nat) (version_neg ACLK_VERSION_MIN ACLK_V_CHILDRENSTATE : Int)
    (r : query_fields) (metadata : Nat → ACLK_METADATA_STATE) (sent : List Outbound) :
    (Nat → ACLK_METADATA_STATE) × List Outbound :=
  let host := r.data
  match r.cmd with
  | .ACLK_CMD_ONCONNECT =>
    if host = 0 then (metadata, sent)
    else if ACLK_VERSION_MIN < ACLK_V_CHILDRENSTATE ∧ host ≠ localhost ∧
        version_neg < ACLK_V_CHILDRENSTATE then (metadata, sent)
    else
      let meta_state := metadata host
      (Function.update metadata host .ACLK_METADATA_SENT,
        sent ++ [.send_metadata meta_state host])
  | .ACLK_CMD_CHART =>
    if host = 0 then (metadata, sent)
    else (metadata, sent ++ [.send_single_chart host r.query])
  | .ACLK_CMD_CHARTDEL =>
    if host = 0 then (metadata, sent)
    else (metadata, sent ++ [.send_info_metadata .ACLK_METADATA_SENT host])
  | .ACLK_CMD_ALARM => (metadata, sent ++ [.send_message r.topic r.query r.msg_id])
  | .ACLK_CMD_CLOUD => (metadata, sent ++ [.execute_query r])
  | .ACLK_CMD_CLOUD_QUERY_2 => (metadata, sent ++ [.execute_query_v2 r])
  | .ACLK_CMD_CHILD_CONNECT =>
    if host = 0 then (metadata, sent)
    else (metadata, sent ++ [.send_info_child_connection host r.cmd])
  | .ACLK_CMD_CHILD_DISCONNECT =>
    if host = 0 then (metadata, sent)
    else (metadata, sent ++ [.send_info_child_connection host r.cmd])
  | .other _ => (metadata, sent)

/-- `aclk_process_query` at the clock value `now`: the value returned and the
state afterwards.  `aclk_connected`, `localhost` and
`aclk_shared_state.version_neg` are the globals it reads. -/
def aclk_process_query (aclk_connected : Bool) (now : Int) (localhost : Nat)
    (version_neg ACLK_VERSION_MIN ACLK_V_CHILDRENSTATE : Int) (st : DispatchState) :
    Except Fault (Int × DispatchState) :=
  if !aclk_connected then .ok (0, st)
  else
    match aclk_queue_pop now st.queue with
    | .error e => .error e
    | .ok (none, q1) => .ok (0, { st with queue := q1 })
    | .ok (some this_query, q1) =>
      match load q1.heap this_query with
      | .error e => .error e
      | .ok r =>
        match aclk_query_free q1.heap (some this_query) with
        | .error e => .error e
        | .ok h =>
          if r.deleted then .ok (1, { st with queue := { q1 with heap := h } })
          else
            let out := dispatch localhost version_neg ACLK_VERSION_MIN ACLK_V_CHILDRENSTATE
              r.toquery_fields st.metadata st.sent
            .ok (1, { queue := { q1 with heap := h }, metadata := out.1, sent := out.2 })

/-- The queue that holds one `on_connect` command for the host at `host`, as
`aclk_query_main_thread` queues it. -/
def onconnect_queue (host : Nat) : QueueState :=
  { heap := [some { run_after := 0, cmd := .ACLK_CMD_ONCONNECT, topic := "on_connect",
                    data := host, msg_id := none, query := none, deleted := false,
                    next := none }]
    aclk_query_head := some 0
    aclk_query_tail := none
    count := 1 }

/-- The queue `onconnect_queue host` after its record is popped. -/
def onconnect_popped (host : Nat) : QueueState :=
  { heap := [some { run_after := 0, cmd := .ACLK_CMD_ONCONNECT, topic := "on_connect",
                    data := host, msg_id := none, query := none, deleted := false,
                    next := none }]
    aclk_query_head := none
    aclk_query_tail := none
    count := 0 }

/-! ## Cloud queries: request header and endpoint -/

/-- The text begins with the characters of `needle`. -/
def starts_with : List Char → List Char → Bool
  | [], _ => true
  | _ :: _, [] => false
  | a :: needle, b :: text => decide (a = b) && starts_with needle text

/-- `strstr(text, needle)`: the offset of the first place in `text` at which
`needle` stands, `none` for `NULL`. -/
def strstr : List Char → List Char → Option Nat
  | [], needle => if starts_with needle [] then some 0 else none
  | c :: text, needle =>
    if starts_with needle (c :: text) then some 0
    else (strstr text needle).map (fun i => i + 1)

/-- `strchr(s, c)`: the offset of the first `c` in `s`. -/
def strchr : List Char → Char → Option Nat
  | [], _ => none
  | x :: s, c => if x = c then some 0 else (strchr s c).map (fun i => i + 1)

/-- `strrchr(s, c)`: the offset of the last `c` in `s`. -/
def strrchr : List Char → Char → Option Nat
  | [], _ => none
  | x :: s, c =>
    match strrchr s c with
    | some i => some (i + 1)
    | none => if x = c then some 0 else none

/-- The marker `WEB_HDR_ACCEPT_ENC`. -/
def WEB_HDR_ACCEPT_ENC : List Char := "Accept-Encoding:".toList

/-- The word `gzip` that is searched behind the marker. -/
def GZIP : List Char := "gzip".toList

/-- The line end `"\x0D\x0A"`. -/
def CRLF : List Char := [Char.ofNat 13, Char.ofNat 10]

/-- The test of `aclk_execute_query_v2` on the request header `cloud_req->data`
that decides whether zlib is set up: the marker is searched, then, from the end
of the marker on, the line end and `gzip`; the result is `start && start < end`
(false when there is no line end, `end` being `NULL` then). -/
def gzip_requested (data : List Char) : Bool :=
  match strstr data WEB_HDR_ACCEPT_ENC with
  | none => false
  | some i =>
    let start := data.drop (i + WEB_HDR_ACCEPT_ENC.length)
    match strstr start GZIP, strstr start CRLF with
    | some g, some e => decide (g < e)
    | _, _ => false

/-- The needle stands in the text at offset `i`. -/
def occurs_at (needle text : List Char) (i : Nat) : Prop :=
  i ≤ text.length ∧ starts_with needle (text.drop i) = true

/-- The first place at which the needle stands in the text is offset `i`. -/
def first_at (needle text : List Char) (i : Nat) : Prop :=
  occurs_at needle text i ∧ ∀ j, j < i → ¬ occurs_at needle text j

/-- What both executors do with the query string before they call the query
engine: the string is cut at the first `?` (`*mysep = 0`), and the name of the
endpoint is what follows the last `/` of what is left, or `noop`.  The result
is the endpoint and the text that is copied to `decoded_query_string` (from the
`?` on, or the whole query when there is none). -/
def split_request (query : List Char) : List Char × List Char :=
  let cut : List Char × List Char :=
    match strchr query (Char.ofNat 63) with
    | some i => (query.take i, query.drop i)
    | none => (query, query)
  let endpoint :=
    match strrchr cut.1 (Char.ofNat 47) with
    | some j => cut.1.drop (j + 1)
    | none => "noop".toList
  (endpoint, cut.2)

/-- The call of the query engine by `aclk_execute_query`: the endpoint and the
text copied with `strncpyz` to `decoded_query_string` (at most
`NETDATA_WEB_REQUEST_URL_SIZE` characters, a constant of the web server that
is a parameter here); `none` when the query does not begin with
`/api/v1/` and the function returns 1 without calling the engine. -/
def aclk_execute_query_request (NETDATA_WEB_REQUEST_URL_SIZE : Nat) (query : List Char) :
    Option (List Char × List Char) :=
  if starts_with "/api/v1/".toList query then
    some ((split_request query).1, (split_request query).2.take NETDATA_WEB_REQUEST_URL_SIZE)
  else none

/-- The call of the query engine by `aclk_execute_query_v2`: the endpoint and
the decoded query string; `url_decode_r` is a helper of libnetdata and is
a parameter here. -/
def aclk_execute_query_v2_request (url_decode_r : List Char → List Char)
    (query : List Char) : List Char × List Char :=
  ((split_request query).1, url_decode_r (split_request query).2)

/-- The endpoint in the words of the spec: of the part of the query before the
first `?`, the text after the last `/`, or `noop` when that part has no
`/`. -/
def endpoint_name (query : List Char) : List Char :=
  let path := query.takeWhile (fun c => decide (c ≠ Char.ofNat 63))
  if Char.ofNat 47 ∈ path then
    (path.reverse.takeWhile (fun c => decide (c ≠ Char.ofNat 47))).reverse
  else "noop".toList

/-- A request header with two `Accept-Encoding:` lines, the second of which
names gzip. -/
def two_encoding_lines : List Char :=
  "Accept-Encoding: br".toList ++ CRLF ++ "Accept-Encoding: gzip".toList ++ CRLF

/-! ## Heap and list lemmas -/


theorem deref_lt {h : Heap} {p : Nat} {r : aclk_query} (hp : deref h p = some r) :
    p < h.length := by
  by_contra hge
  have : h[p]? = none := List.getElem?_eq_none (by omega)
  simp [deref, this] at hp

theorem deref_set_ne (h : Heap) {p q : Nat} (v : Option aclk_query) (hne : p ≠ q) :
    deref (h.set q v) p = deref h p := by
  simp [deref, List.getElem?_set_ne (Ne.symm hne)]

theorem deref_set_eq (h : Heap) {q : Nat} (v : Option aclk_query) (hq : q < h.length) :
    deref (h.set q v) q = v := by
  simp [deref, List.getElem?_set_self hq]

theorem deref_append_lt (h k : Heap) {p : Nat} (hp : p < h.length) :
    deref (h ++ k) p = deref h p := by
  simp [deref, List.getElem?_append_left hp]

theorem deref_append_length (h : Heap) (v : Option aclk_query) :
    deref (h ++ [v]) h.length = v := by
  simp [deref]

theorem load_of_deref {h : Heap} {p : Nat} {r : aclk_query} (hp : deref h p = some r) :
    load h p = .ok r := by
  simp [load, hp]


theorem chain_functional {h : Heap} : ∀ (l1 l2 : List (Nat × query_fields)) (p : Option Nat),
    Chain h p l1 → Chain h p l2 → l1 = l2
  | [], [], _, _, _ => rfl
  | [], y :: l2, p, h1, h2 => by
    simp only [Chain] at h1 h2
    rw [h1] at h2
    exact absurd h2.1 (by simp)
  | x :: l1, [], p, h1, h2 => by
    simp only [Chain] at h1 h2
    rw [h2] at h1
    exact absurd h1.1 (by simp)
  | x :: l1, y :: l2, p, h1, h2 => by
    simp only [Chain] at h1 h2
    obtain ⟨hp1, r1, hr1, hf1, hc1⟩ := h1
    obtain ⟨hp2, r2, hr2, hf2, hc2⟩ := h2
    have hxy : x.1 = y.1 := by
      rw [hp1] at hp2
      exact Option.some.inj hp2
    rw [hxy, hr2] at hr1
    have hr : r2 = r1 := Option.some.inj hr1
    subst hr
    have htl := chain_functional l1 l2 _ hc1 hc2
    have hxy2 : x = y := Prod.ext hxy (hf1.symm.trans hf2)
    rw [hxy2, htl]

theorem chain_lt {h : Heap} : ∀ (l : List (Nat × query_fields)) (p : Option Nat),
    Chain h p l → ∀ x ∈ l, x.1 < h.length
  | [], _, _, x, hx => by simp at hx
  | y :: l, p, hc, x, hx => by
    simp only [Chain] at hc
    obtain ⟨_, r, hr, _, hc⟩ := hc
    rcases List.mem_cons.1 hx with rfl | hx
    · exact deref_lt hr
    · exact chain_lt l _ hc x hx

theorem chain_suffix {h : Heap} : ∀ (l : List (Nat × query_fields)) (p : Option Nat),
    Chain h p l → ∀ x ∈ l, ∃ l2, Chain h (some x.1) l2 ∧ l2.length ≤ l.length
  | [], _, _, x, hx => by simp at hx
  | y :: l, p, hc, x, hx => by
    rcases List.mem_cons.1 hx with rfl | hx
    · simp only [Chain] at hc
      exact ⟨x :: l, ⟨rfl, hc.2⟩, le_refl _⟩
    · simp only [Chain] at hc
      obtain ⟨_, r, _, _, hc⟩ := hc
      obtain ⟨l2, h2, hlen⟩ := chain_suffix l _ hc x hx
      exact ⟨l2, h2, by simp; omega⟩

theorem chain_nodup {h : Heap} : ∀ (l : List (Nat × query_fields)) (p : Option Nat),
    Chain h p l → (l.map Prod.fst).Nodup
  | [], _, _ => by simp
  | x :: l, p, hc => by
    have hc0 := hc
    simp only [Chain] at hc
    obtain ⟨hp, r, hr, hf, hcl⟩ := hc
    rw [List.map_cons, List.nodup_cons]
    refine ⟨?_, chain_nodup l _ hcl⟩
    intro hmem
    obtain ⟨y, hy, hyx⟩ := List.mem_map.1 hmem
    obtain ⟨l2, h2, hlen⟩ := chain_suffix l _ hcl y hy
    rw [hyx, ← hp] at h2
    have := chain_functional _ _ _ h2 hc0
    rw [this] at hlen
    simp at hlen

theorem chain_length_le {h : Heap} (l : List (Nat × query_fields)) (p : Option Nat)
    (hc : Chain h p l) : l.length ≤ h.length := by
  have hnd := chain_nodup l p hc
  have hsub : (l.map Prod.fst).toFinset ⊆ Finset.range h.length := by
    intro a ha
    rw [List.mem_toFinset] at ha
    obtain ⟨y, hy, rfl⟩ := List.mem_map.1 ha
    exact Finset.mem_range.2 (chain_lt l p hc y hy)
  have hcard := Finset.card_le_card hsub
  rw [List.toFinset_card_of_nodup hnd] at hcard
  simpa using hcard

theorem chain_set {h : Heap} (q : Nat) (v : Option aclk_query) :
    ∀ (l : List (Nat × query_fields)) (p : Option Nat),
    Chain h p l → q ∉ l.map Prod.fst → Chain (h.set q v) p l
  | [], _, hc, _ => hc
  | x :: l, p, hc, hq => by
    simp only [Chain] at hc ⊢
    obtain ⟨hp, r, hr, hf, hcl⟩ := hc
    simp only [List.map_cons, List.mem_cons, not_or] at hq
    refine ⟨hp, r, ?_, hf, chain_set q v l _ hcl hq.2⟩
    rw [deref_set_ne h v (Ne.symm hq.1)]
    exact hr

theorem chain_append {h : Heap} (k : Heap) :
    ∀ (l : List (Nat × query_fields)) (p : Option Nat),
    Chain h p l → Chain (h ++ k) p l
  | [], _, hc => hc
  | x :: l, p, hc => by
    simp only [Chain] at hc ⊢
    obtain ⟨hp, r, hr, hf, hcl⟩ := hc
    refine ⟨hp, r, ?_, hf, chain_append k l _ hcl⟩
    rw [deref_append_lt h k (deref_lt hr)]
    exact hr


theorem find_scan_eq {h : Heap} (topic : String) (data : Nat) (msg_id query : Option String) :
    ∀ (l : List (Nat × query_fields)) (fuel : Nat) (p prev : Option Nat),
    Chain h p l → l.length < fuel →
    find_scan h topic data msg_id query fuel p prev = find_list topic data msg_id query l prev
  | [], fuel, p, prev, hc, hf => by
    simp only [Chain] at hc
    subst hc
    obtain ⟨n, rfl⟩ : ∃ n, fuel = n + 1 := ⟨fuel - 1, by simp at hf; omega⟩
    simp [find_scan, find_list]
  | x :: l, fuel, p, prev, hc, hf => by
    simp only [Chain] at hc
    obtain ⟨hp, r, hr, hfld, hcl⟩ := hc
    subst hp
    obtain ⟨n, rfl⟩ : ∃ n, fuel = n + 1 := ⟨fuel - 1, by simp at hf; omega⟩
    have ih := find_scan_eq topic data msg_id query l n r.next (some x.1) hcl
      (by simp at hf; omega)
    simp only [find_scan, find_list, load_of_deref hr, hfld, ih]

theorem find_position_scan_eq {h : Heap} (t : Int) :
    ∀ (l : List (Nat × query_fields)) (fuel : Nat) (p last : Option Nat),
    Chain h p l → l.length < fuel →
    find_position_scan h t fuel p last = .ok (position_list t l last)
  | [], fuel, p, last, hc, hf => by
    simp only [Chain] at hc
    subst hc
    obtain ⟨n, rfl⟩ : ∃ n, fuel = n + 1 := ⟨fuel - 1, by simp at hf; omega⟩
    simp [find_position_scan, position_list]
  | x :: l, fuel, p, last, hc, hf => by
    simp only [Chain] at hc
    obtain ⟨hp, r, hr, hfld, hcl⟩ := hc
    subst hp
    obtain ⟨n, rfl⟩ : ∃ n, fuel = n + 1 := ⟨fuel - 1, by simp at hf; omega⟩
    have ih := find_position_scan_eq t l n r.next (some x.1) hcl (by simp at hf; omega)
    have hra : r.run_after = x.2.run_after := by rw [← hfld]
    simp only [find_position_scan, position_list, load_of_deref hr, hra, ih]
    split <;> rfl


theorem chain_cons_nil_iff {h : Heap} {p : Option Nat} {l : List (Nat × query_fields)}
    (hc : Chain h p l) : p = none ↔ l = [] := by
  cases l with
  | nil => simpa [Chain] using hc
  | cons x l =>
    simp only [Chain] at hc
    simp [hc.1]

theorem pop_purge_spec : ∀ (l : List (Nat × query_fields)) (fuel : Nat) (s : QueueState),
    Chain s.heap s.aclk_query_head l → l.length < fuel →
    ∃ s1, pop_purge fuel s = .ok s1 ∧
      Chain s1.heap s1.aclk_query_head (l.dropWhile (fun x => x.2.deleted)) ∧
      s1.aclk_query_tail =
        (if l.takeWhile (fun x => x.2.deleted) ≠ [] ∧ l.dropWhile (fun x => x.2.deleted) = []
         then none else s.aclk_query_tail) ∧
      s1.count = count_dec^[(l.takeWhile (fun x => x.2.deleted)).length] s.count ∧
      s1.heap.length = s.heap.length ∧
      (∀ x ∈ l.takeWhile (fun x => x.2.deleted), deref s1.heap x.1 = none) ∧
      (∀ p, p ∉ (l.takeWhile (fun x => x.2.deleted)).map Prod.fst →
        deref s1.heap p = deref s.heap p)
  | [], fuel, s, hc, hf => by
    obtain ⟨n, rfl⟩ : ∃ n, fuel = n + 1 := ⟨fuel - 1, by simp at hf; omega⟩
    simp only [Chain] at hc
    refine ⟨s, ?_, ?_⟩
    · simp [pop_purge, hc]
    · simp [Chain, hc]
  | x :: l, fuel, s, hc, hf => by
    obtain ⟨n, rfl⟩ : ∃ n, fuel = n + 1 := ⟨fuel - 1, by simp at hf; omega⟩
    have hnd := chain_nodup _ _ hc
    have hc0 := hc
    simp only [Chain] at hc
    obtain ⟨hp, r, hr, hfld, hcl⟩ := hc
    have hdel : r.deleted = x.2.deleted := by rw [← hfld]
    by_cases hx : x.2.deleted = true
    · -- the head is deleted: it is freed and the loop goes on
      rw [List.map_cons, List.nodup_cons] at hnd
      have hcl2 : Chain (s.heap.set x.1 none) r.next l := chain_set x.1 none l _ hcl hnd.1
      obtain ⟨s1, hs1, hch, htail, hcnt, hlen, hfreed, hframe⟩ :=
        pop_purge_spec l n
          { heap := s.heap.set x.1 none
            aclk_query_head := r.next
            aclk_query_tail := if r.next = none then none else s.aclk_query_tail
            count := count_dec s.count } hcl2 (by simp at hf; omega)
      refine ⟨s1, ?_, ?_, ?_, ?_, ?_, ?_, ?_⟩
      · simp only [pop_purge, hp, load_of_deref hr, hdel, hx, aclk_query_free, if_true]
        exact hs1
      · simpa [List.dropWhile_cons, hx] using hch
      · rw [htail]
        have hnil := chain_cons_nil_iff hcl
        simp only [List.takeWhile_cons, List.dropWhile_cons, hx, if_true]
        by_cases hd : l.dropWhile (fun x => x.2.deleted) = []
        · by_cases ht : l.takeWhile (fun x => x.2.deleted) = []
          · have hl : l = [] := by
              have := List.takeWhile_append_dropWhile (fun x : Nat × query_fields => x.2.deleted) l
              rw [hd, ht] at this
              simpa using this.symm
            simp [hd, ht, hnil.2 hl]
          · simp [hd, ht]
        · have hl : l ≠ [] := by
            intro hl
            apply hd
            simp [hl]
          have hnx : r.next ≠ none := fun hn => hl (hnil.1 hn)
          simp [hd, hnx]
      · rw [hcnt]
        simp only [List.takeWhile_cons, hx, if_true, List.length_cons,
          Function.iterate_succ_apply]
      · simpa using hlen
      · intro y hy
        simp only [List.takeWhile_cons, hx, if_true, List.mem_cons] at hy
        rcases hy with rfl | hy
        · have hnot : y.1 ∉ (l.takeWhile (fun x => x.2.deleted)).map Prod.fst := by
            intro hmem
            apply hnd.1
            obtain ⟨z, hz, hzy⟩ := List.mem_map.1 hmem
            exact List.mem_map.2 ⟨z, List.takeWhile_subset _ hz, hzy⟩
          rw [hframe _ hnot]
          exact deref_set_eq _ _ (deref_lt hr)
        · exact hfreed y hy
      · intro p hpn
        simp only [List.takeWhile_cons, hx, if_true, List.map_cons, List.mem_cons, not_or] at hpn
        rw [hframe p hpn.2]
        exact deref_set_ne _ _ hpn.1
    · -- the head is not deleted: the loop stops
      have hx2 : x.2.deleted = false := by simpa using hx
      refine ⟨s, ?_, ?_, ?_, ?_, rfl, ?_, ?_⟩
      · simp [pop_purge, hp, load_of_deref hr, hdel, hx2]
      · simpa [List.dropWhile_cons, hx2] using hc0
      · simp [List.takeWhile_cons, hx2]
      · simp [List.takeWhile_cons, hx2]
      · simp [List.takeWhile_cons, hx2]
      · simp

theorem dropWhile_head_false {α : Type} (p : α → Bool) :
    ∀ (l : List α) (x : α) (t : List α), l.dropWhile p = x :: t → p x = false
  | [], x, t, h => by simp at h
  | y :: l, x, t, h => by
    by_cases hy : p y = true
    · rw [List.dropWhile_cons, if_pos hy] at h
      exact dropWhile_head_false p l x t h
    · rw [List.dropWhile_cons, if_neg hy] at h
      have : y = x := (List.cons.inj h).1
      subst this
      simpa using hy

/-- What `aclk_queue_pop` does to a queue whose linked records are `l`: the
leading deleted records are freed, and the first record that is left is handed
out when it is due. -/
theorem aclk_queue_pop_spec (now : Int) (s : QueueState) (l : List (Nat × query_fields))
    (hc : Chain s.heap s.aclk_query_head l) :
    ∃ s1, pop_purge (s.heap.length + 1) s = .ok s1 ∧
      Chain s1.heap s1.aclk_query_head (l.dropWhile (fun x => x.2.deleted)) ∧
      s1.aclk_query_tail =
        (if l.takeWhile (fun x => x.2.deleted) ≠ [] ∧ l.dropWhile (fun x => x.2.deleted) = []
         then none else s.aclk_query_tail) ∧
      s1.count = count_dec^[(l.takeWhile (fun x => x.2.deleted)).length] s.count ∧
      s1.heap.length = s.heap.length ∧
      (∀ x ∈ l.takeWhile (fun x => x.2.deleted), deref s1.heap x.1 = none) ∧
      (∀ p, p ∉ (l.takeWhile (fun x => x.2.deleted)).map Prod.fst →
        deref s1.heap p = deref s.heap p) ∧
      ((l.dropWhile (fun x => x.2.deleted) = [] ∧ aclk_queue_pop now s = .ok (none, s1)) ∨
       (∃ x t, l.dropWhile (fun x => x.2.deleted) = x :: t ∧ x.2.deleted = false ∧
          now < x.2.run_after ∧ aclk_queue_pop now s = .ok (none, s1)) ∨
       (∃ x t s2, l.dropWhile (fun x => x.2.deleted) = x :: t ∧ x.2.deleted = false ∧
          x.2.run_after ≤ now ∧ aclk_queue_pop now s = .ok (some x.1, s2) ∧
          s2.heap = s1.heap ∧ Chain s2.heap s2.aclk_query_head t ∧
          s2.count = count_dec s1.count ∧
          s2.aclk_query_tail = (if t = [] then none else s1.aclk_query_tail))) := by
  obtain ⟨s1, hs1, hch, htail, hcnt, hlen, hfreed, hframe⟩ :=
    pop_purge_spec l (s.heap.length + 1) s hc (Nat.lt_succ_of_le (chain_length_le l _ hc))
  refine ⟨s1, hs1, hch, htail, hcnt, hlen, hfreed, hframe, ?_⟩
  cases l with
  | nil =>
    left
    simp only [Chain] at hc
    simp [aclk_queue_pop, hc]
    simp [pop_purge, hc] at hs1
    exact hs1
  | cons y l0 =>
    have hhead : ∃ q, s.aclk_query_head = some q := by
      simp only [Chain] at hc
      exact ⟨_, hc.1⟩
    obtain ⟨q, hq⟩ := hhead
    generalize hrest : (y :: l0).dropWhile (fun x => x.2.deleted) = rest at hch
    cases rest with
    | nil =>
      left
      simp only [Chain] at hch
      simp [aclk_queue_pop, hq, hs1, hch]
    | cons x t =>
      right
      have hxd := dropWhile_head_false _ _ _ _ hrest
      simp only [Chain] at hch
      obtain ⟨hp1, r, hr, hfld, hct⟩ := hch
      have hdel : r.deleted = false := by rw [← hxd, ← hfld]
      have hra : r.run_after = x.2.run_after := by rw [← hfld]
      by_cases hdue : now < x.2.run_after
      · left
        refine ⟨x, t, rfl, hxd, hdue, ?_⟩
        simp [aclk_queue_pop, hq, hs1, hp1, load_of_deref hr, hdel, hra, hdue]
      · right
        have hle : x.2.run_after ≤ now := not_lt.1 hdue
        refine ⟨x, t,
          { s1 with
            count := count_dec s1.count
            aclk_query_head := r.next
            aclk_query_tail := if r.next = none then none else s1.aclk_query_tail },
          rfl, hxd, hle, ?_, rfl, ?_, rfl, ?_⟩
        · simp [aclk_queue_pop, hq, hs1, hp1, load_of_deref hr, hdel, hra, hdue]
        · exact hct
        · have := chain_cons_nil_iff hct
          by_cases ht : t = []
          · simp [ht, this.2 ht]
          · have hn : r.next ≠ none := fun hn => ht (this.1 hn)
            simp [ht, hn]

theorem position_list_cases (t : Int) :
    ∀ (l : List (Nat × query_fields)) (last : Option Nat),
    (l.takeWhile (fun y => decide (y.2.run_after ≤ t)) = [] ∧ position_list t l last = last) ∨
    (∃ l1 y, l.takeWhile (fun y => decide (y.2.run_after ≤ t)) = l1 ++ [y] ∧
      position_list t l last = some y.1)
  | [], last => by simp [position_list]
  | x :: l, last => by
    by_cases hx : x.2.run_after > t
    · left
      have : ¬ x.2.run_after ≤ t := not_le.2 hx
      simp [position_list, hx, List.takeWhile_cons, this]
    · right
      have hle : x.2.run_after ≤ t := not_lt.1 hx
      rcases position_list_cases t l (some x.1) with ⟨h1, h2⟩ | ⟨l1, y, h1, h2⟩
      · refine ⟨[], x, ?_, ?_⟩
        · simp [List.takeWhile_cons, hle, h1]
        · simp [position_list, hx, h2]
      · refine ⟨x :: l1, y, ?_, ?_⟩
        · simp [List.takeWhile_cons, hle, h1]
        · simp [position_list, hx, h2]

theorem chain_link_head {h : Heap} (f : query_fields) (v : Option aclk_query)
    (p : Option Nat) (l : List (Nat × query_fields)) (hc : Chain h p l) :
    Chain ((h ++ [v]).set h.length (some { toquery_fields := f, next := p }))
      (some h.length) ((h.length, f) :: l) := by
  refine ⟨rfl, { toquery_fields := f, next := p }, ?_, rfl, ?_⟩
  · exact deref_set_eq _ _ (by simp)
  · apply chain_set
    · exact chain_append _ _ _ hc
    · intro hmem
      obtain ⟨y, hy, hyx⟩ := List.mem_map.1 hmem
      have := chain_lt l p hc y hy
      omega

theorem chain_link_after {h : Heap} (f : query_fields) (v : Option aclk_query)
    (y : Nat × query_fields) (r : aclk_query) (l2 : List (Nat × query_fields)) :
    ∀ (l1 : List (Nat × query_fields)) (p : Option Nat),
    Chain h p (l1 ++ y :: l2) → deref h y.1 = some r →
    Chain
      (((h ++ [v]).set h.length (some { toquery_fields := f, next := r.next })).set y.1
        (some { r with next := some h.length }))
      p (l1 ++ y :: (h.length, f) :: l2)
  | [], p, hc, hr => by
    have hnd := chain_nodup _ _ hc
    have hlt := chain_lt _ _ hc
    simp only [List.nil_append, Chain] at hc
    obtain ⟨hp, r0, hr0, hfld, hcl⟩ := hc
    rw [hr] at hr0
    have : r = r0 := Option.some.inj hr0
    subst this
    have hylt : y.1 < h.length := deref_lt hr
    refine ⟨hp, { r with next := some h.length },
      deref_set_eq _ _ (by simpa using Nat.lt_succ_of_lt hylt), hfld, rfl,
      { toquery_fields := f, next := r.next }, ?_, rfl, ?_⟩
    · rw [deref_set_ne _ _ (Nat.ne_of_gt hylt)]
      exact deref_set_eq _ _ (by simp)
    · simp only [List.nil_append, List.map_cons, List.nodup_cons] at hnd
      apply chain_set _ _ _ _ _ hnd.1
      apply chain_set
      · exact chain_append _ _ _ hcl
      · intro hmem
        obtain ⟨z, hz, hzx⟩ := List.mem_map.1 hmem
        have := hlt z (List.mem_cons_of_mem _ hz)
        omega
  | x :: l1, p, hc, hr => by
    have hnd := chain_nodup _ _ hc
    simp only [List.cons_append, Chain] at hc
    obtain ⟨hp, rx, hrx, hfld, hcl⟩ := hc
    have ih := chain_link_after f v y r l2 l1 rx.next hcl hr
    have hxlt : x.1 < h.length := deref_lt hrx
    have hxy : x.1 ≠ y.1 := by
      simp only [List.cons_append, List.map_cons, List.nodup_cons, List.map_append,
        List.mem_append, List.mem_cons, not_or] at hnd
      exact hnd.1.2.1
    refine ⟨hp, rx, ?_, hfld, ih⟩
    rw [deref_set_ne _ _ hxy, deref_set_ne _ _ (Nat.ne_of_lt hxlt), deref_append_lt _ _ hxlt]
    exact hrx

theorem chain_unlink_head {h : Heap} (x : Nat × query_fields) (r : aclk_query)
    (l2 : List (Nat × query_fields)) (p : Option Nat)
    (hc : Chain h p (x :: l2)) (hr : deref h x.1 = some r) :
    Chain (h.set x.1 none) r.next l2 := by
  have hnd := chain_nodup _ _ hc
  simp only [Chain] at hc
  obtain ⟨_, r0, hr0, _, hcl⟩ := hc
  rw [hr] at hr0
  have : r = r0 := Option.some.inj hr0
  subst this
  simp only [List.map_cons, List.nodup_cons] at hnd
  exact chain_set _ _ _ _ hcl hnd.1

theorem chain_unlink_after {h : Heap} (y x : Nat × query_fields) (ry rx : aclk_query)
    (l2 : List (Nat × query_fields)) :
    ∀ (l0 : List (Nat × query_fields)) (p : Option Nat),
    Chain h p (l0 ++ y :: x :: l2) → deref h y.1 = some ry → deref h x.1 = some rx →
    Chain ((h.set y.1 (some { ry with next := rx.next })).set x.1 none) p (l0 ++ y :: l2)
  | [], p, hc, hry, hrx => by
    have hnd := chain_nodup _ _ hc
    simp only [List.nil_append, Chain] at hc
    obtain ⟨hp, r0, hr0, hfld, _, r1, hr1, _, hcl⟩ := hc
    rw [hry] at hr0
    have : ry = r0 := Option.some.inj hr0
    subst this
    rw [hrx] at hr1
    have : rx = r1 := Option.some.inj hr1
    subst this
    simp only [List.nil_append, List.map_cons, List.nodup_cons, List.mem_cons, not_or] at hnd
    refine ⟨hp, { ry with next := rx.next }, ?_, hfld, ?_⟩
    · rw [deref_set_ne _ _ hnd.1.1]
      exact deref_set_eq _ _ (deref_lt hry)
    · exact chain_set _ _ _ _ (chain_set _ _ _ _ hcl hnd.1.2) hnd.2.1
  | z :: l0, p, hc, hry, hrx => by
    have hnd := chain_nodup _ _ hc
    simp only [List.cons_append, Chain] at hc
    obtain ⟨hp, rz, hrz, hfld, hcl⟩ := hc
    have ih := chain_unlink_after y x ry rx l2 l0 rz.next hcl hry hrx
    simp only [List.cons_append, List.map_cons, List.nodup_cons, List.map_append,
      List.mem_append, List.mem_cons, not_or] at hnd
    refine ⟨hp, rz, ?_, hfld, ih⟩
    rw [deref_set_ne _ _ hnd.1.2.2.1, deref_set_ne _ _ hnd.1.2.1]
    exact hrz

theorem chain_mem_deref {h : Heap} : ∀ (l : List (Nat × query_fields)) (p : Option Nat),
    Chain h p l → ∀ x ∈ l, ∃ r, deref h x.1 = some r ∧ r.toquery_fields = x.2
  | [], _, _, x, hx => by simp at hx
  | y :: l, p, hc, x, hx => by
    simp only [Chain] at hc
    obtain ⟨_, r, hr, hfld, hcl⟩ := hc
    rcases List.mem_cons.1 hx with rfl | hx
    · exact ⟨r, hr, hfld⟩
    · exact chain_mem_deref l _ hcl x hx

/-- Linking a new record into a queue whose linked records are `l` and whose
tail pointer is not set: the record gets the next unused address and goes
behind the leading records that are due no later than it. -/
theorem link_new_spec (s : QueueState) (f : query_fields) (l : List (Nat × query_fields))
    (hc : Chain s.heap s.aclk_query_head l) (htail : s.aclk_query_tail = none) :
    ∃ s1, link_new s f = .ok s1 ∧
      Chain s1.heap s1.aclk_query_head (insert_list (s.heap.length, f) l) ∧
      s1.aclk_query_tail = none ∧ s1.count = count_inc s.count ∧
      s1.heap.length = s.heap.length + 1 := by
  have hc1 : Chain (s.heap ++ [some (aclk_query.mk f none)])
      s.aclk_query_head l := chain_append _ _ _ hc
  have hscan := find_position_scan_eq f.run_after l
    ((s.heap ++ [some (aclk_query.mk f none)]).length + 1)
    s.aclk_query_head none hc1
    (by have := chain_length_le l _ hc; simp; omega)
  have hsplit := List.takeWhile_append_dropWhile
    (fun y : Nat × query_fields => decide (y.2.run_after ≤ f.run_after)) l
  rcases position_list_cases f.run_after l none with ⟨h1, h2⟩ | ⟨l1, y, h1, h2⟩
  · rw [h2] at hscan
    rw [h1, List.nil_append] at hsplit
    refine ⟨
      { heap := (s.heap ++ [some (aclk_query.mk f none)]).set s.heap.length
          (some (aclk_query.mk f s.aclk_query_head))
        aclk_query_head := some s.heap.length
        aclk_query_tail := s.aclk_query_tail
        count := count_inc s.count }, ?_, ?_, ?_, ?_, ?_⟩
    · simp only [link_new, aclk_query_find_position, htail, hscan]
    · simp only [insert_list, h1, hsplit, List.nil_append]
      exact chain_link_head f _ _ l hc
    · exact htail
    · rfl
    · simp
  · rw [h2] at hscan
    rw [h1] at hsplit
    have hymem : y ∈ l := by
      rw [← hsplit]
      simp
    obtain ⟨r, hr, hfld⟩ := chain_mem_deref l _ hc y hymem
    have hr1 : deref (s.heap ++ [some (aclk_query.mk f none)]) y.1 = some r := by
      rw [deref_append_lt _ _ (deref_lt hr)]
      exact hr
    refine ⟨
      { heap := ((s.heap ++ [some (aclk_query.mk f none)]).set s.heap.length
          (some (aclk_query.mk f r.next))).set y.1 (some { r with next := some s.heap.length })
        aclk_query_head := s.aclk_query_head
        aclk_query_tail :=
          if some y.1 = s.aclk_query_tail then some s.heap.length else s.aclk_query_tail
        count := count_inc s.count }, ?_, ?_, ?_, ?_, ?_⟩
    · simp only [link_new, aclk_query_find_position, htail, hscan, load_of_deref hr1]
    · simp only [insert_list, h1, List.append_assoc, List.singleton_append]
      apply chain_link_after f _ y r _ l1 _ _ hr
      rw [← hsplit] at hc
      simpa using hc
    · simp [htail]
    · rfl
    · simp

theorem aclk_query_find_eq (s : QueueState) (topic : String) (data : Nat)
    (msg_id query : Option String) (cmd : ACLK_CMD) (l : List (Nat × query_fields))
    (hc : Chain s.heap s.aclk_query_head l) :
    aclk_query_find s topic data msg_id query cmd = find_list topic data msg_id query l none :=
  find_scan_eq topic data msg_id query l _ _ _ hc
    (Nat.lt_succ_of_le (chain_length_le l _ hc))

theorem find_list_none (topic : String) (data : Nat) (msg_id query : Option String) :
    ∀ (l : List (Nat × query_fields)) (prev : Option Nat),
    find_list topic data msg_id query l prev = .ok none →
    ∀ x ∈ l, (if x.2.deleted then Except.ok false
              else query_matches topic data msg_id query x.2) = .ok false
  | [], _, _, x, hx => by simp at hx
  | y :: l, prev, hf, x, hx => by
    simp only [find_list] at hf
    generalize hm : (if y.2.deleted then Except.ok false
      else query_matches topic data msg_id query y.2) = m at hf
    match m, hf with
    | .ok false, hf =>
      rcases List.mem_cons.1 hx with rfl | hx
      · exact hm
      · exact find_list_none topic data msg_id query l _ hf x hx

theorem find_list_some (topic : String) (data : Nat) (msg_id query : Option String)
    (a : Nat) (lq : Option Nat) :
    ∀ (l : List (Nat × query_fields)) (prev : Option Nat),
    find_list topic data msg_id query l prev = .ok (some (a, lq)) →
    ∃ l1 d l2, l = l1 ++ (a, d) :: l2 ∧ d.deleted = false ∧
      query_matches topic data msg_id query d = .ok true ∧
      (∀ x ∈ l1, (if x.2.deleted then Except.ok false
                  else query_matches topic data msg_id query x.2) = .ok false) ∧
      ((l1 = [] ∧ lq = prev) ∨ ∃ l0 y, l1 = l0 ++ [y] ∧ lq = some y.1)
  | [], _, hf => by simp [find_list] at hf
  | y :: l, prev, hf => by
    simp only [find_list] at hf
    generalize hm : (if y.2.deleted then Except.ok false
      else query_matches topic data msg_id query y.2) = m at hf
    match m, hf with
    | .ok true, hf =>
      simp only [Except.ok.injEq, Option.some.injEq, Prod.mk.injEq] at hf
      obtain ⟨rfl, rfl⟩ := hf
      have hdel : y.2.deleted = false := by
        by_contra hd
        simp [hd] at hm
      refine ⟨[], y.2, l, rfl, hdel, ?_, ?_, Or.inl ⟨rfl, rfl⟩⟩
      · simpa [hdel] using hm
      · intro x hx
        simp at hx
    | .ok false, hf =>
      obtain ⟨l1, d, l2, hl, hd, hmatch, hprev, hlq⟩ :=
        find_list_some topic data msg_id query a lq l _ hf
      refine ⟨y :: l1, d, l2, by rw [hl]; rfl, hd, hmatch, ?_, ?_⟩
      · intro x hx
        rcases List.mem_cons.1 hx with rfl | hx
        · exact hm
        · exact hprev x hx
      · right
        rcases hlq with ⟨h1, h2⟩ | ⟨l0, z, h1, h2⟩
        · exact ⟨[], y, by simp [h1], h2⟩
        · exact ⟨y :: l0, z, by simp [h1], h2⟩

theorem remove_double_spec (s : QueueState) (a : Nat) (d : query_fields) (lq : Option Nat)
    (l1 l2 : List (Nat × query_fields))
    (hc : Chain s.heap s.aclk_query_head (l1 ++ (a, d) :: l2))
    (hlq : (l1 = [] ∧ lq = none) ∨ ∃ l0 y, l1 = l0 ++ [y] ∧ lq = some y.1) :
    ∃ s1, remove_double s a lq = .ok s1 ∧
      Chain s1.heap s1.aclk_query_head (l1 ++ l2) ∧
      s1.aclk_query_tail = s.aclk_query_tail ∧ s1.count = count_dec s.count ∧
      s1.heap.length = s.heap.length ∧ deref s1.heap a = none := by
  obtain ⟨r, hr, hfld⟩ := chain_mem_deref _ _ hc (a, d) (by simp)
  have halt : a < s.heap.length := deref_lt hr
  rcases hlq with ⟨rfl, rfl⟩ | ⟨l0, y, rfl, rfl⟩
  · refine ⟨{ heap := s.heap.set a none
              aclk_query_head := r.next
              aclk_query_tail := s.aclk_query_tail
              count := count_dec s.count }, ?_, ?_, rfl, rfl, by simp, ?_⟩
    · simp [remove_double, load_of_deref hr, aclk_query_free]
    · exact chain_unlink_head (a, d) r l2 _ hc hr
    · exact deref_set_eq _ _ halt
  · obtain ⟨ry, hry, hfy⟩ := chain_mem_deref _ _ hc y (by simp)
    have hnd := chain_nodup _ _ hc
    have hya : y.1 ≠ a := by
      intro h
      simp only [List.map_append, List.map_cons, List.append_assoc, List.singleton_append,
        List.nodup_append, List.nodup_cons, List.mem_cons, not_or] at hnd
      exact hnd.2.1.1.1 h
    have hr2 : deref (s.heap.set y.1 (some { ry with next := r.next })) a = some r := by
      rw [deref_set_ne _ _ (Ne.symm hya)]
      exact hr
    refine ⟨{ heap := (s.heap.set y.1 (some { ry with next := r.next })).set a none
              aclk_query_head := s.aclk_query_head
              aclk_query_tail := s.aclk_query_tail
              count := count_dec s.count }, ?_, ?_, rfl, rfl, by simp, ?_⟩
    · simp [remove_double, load_of_deref hr, load_of_deref hry, aclk_query_free,
        load_of_deref hr2]
    · have := chain_unlink_after y (a, d) ry r l2 l0 _ (by simpa using hc) hry hr
      simpa using this
    · exact deref_set_eq _ _ (by simpa using halt)

theorem split_unique {x x' : Nat × query_fields} {l2 l2' : List (Nat × query_fields)} :
    ∀ (l1 l1' : List (Nat × query_fields)),
    l1 ++ x :: l2 = l1' ++ x' :: l2' → x.1 = x'.1 →
    ((l1 ++ x :: l2).map Prod.fst).Nodup → l1 = l1' ∧ x = x' ∧ l2 = l2'
  | [], [], h, _, _ => by
    simp only [List.nil_append, List.cons.injEq] at h
    exact ⟨rfl, h.1, h.2⟩
  | [], z :: t, h, hx, hnd => by
    simp only [List.nil_append, List.cons_append, List.cons.injEq] at h
    obtain ⟨rfl, rfl⟩ := h
    simp only [List.nil_append, List.map_cons, List.nodup_cons, List.map_append,
      List.mem_append, List.mem_cons, not_or] at hnd
    exact absurd hx hnd.1.2.1
  | z :: t, [], h, hx, hnd => by
    simp only [List.nil_append, List.cons_append, List.cons.injEq] at h
    obtain ⟨rfl, rfl⟩ := h
    simp only [List.cons_append, List.map_cons, List.nodup_cons, List.map_append,
      List.mem_append, List.mem_cons, not_or] at hnd
    exact absurd hx.symm hnd.1.2.1
  | z :: t, z' :: t', h, hx, hnd => by
    simp only [List.cons_append, List.cons.injEq] at h
    simp only [List.cons_append, List.map_cons, List.nodup_cons] at hnd
    obtain ⟨h1, h2, h3⟩ := split_unique t t' h.2 hx hnd.2
    exact ⟨by rw [h.1, h1], h2, h3⟩

/-- A connected `aclk_queue_query` whose search finds no record links the new
record and returns 0. -/
theorem aclk_queue_query_new (now : Int) (topic : String) (data : Nat)
    (msg_id query : Option String) (run_after : Int) (internal : Bool) (cmd : ACLK_CMD)
    (s : QueueState) (l : List (Nat × query_fields))
    (hc : Chain s.heap s.aclk_query_head l) (htail : s.aclk_query_tail = none)
    (hfind : find_list topic data msg_id query l none = .ok none) :
    ∃ s1, aclk_queue_query true now topic data msg_id query run_after internal cmd s
        = .ok (0, s1) ∧
      Chain s1.heap s1.aclk_query_head
        (insert_list (s.heap.length,
          new_query_fields topic data msg_id query (to_int (now + run_after)) internal cmd) l) ∧
      s1.aclk_query_tail = none ∧ s1.count = count_inc s.count ∧
      s1.heap.length = s.heap.length + 1 := by
  obtain ⟨s1, h1, h2, h3, h4, h5⟩ := link_new_spec s
    (new_query_fields topic data msg_id query (to_int (now + run_after)) internal cmd) l hc htail
  refine ⟨s1, ?_, h2, h3, h4, h5⟩
  simp [aclk_queue_query, aclk_query_find_eq s topic data msg_id query cmd l hc, hfind, h1]

/-- A connected `aclk_queue_query` whose search finds a record due at the very
time of the new one returns 0 and leaves the queue as it is. -/
theorem aclk_queue_query_same (now : Int) (topic : String) (data : Nat)
    (msg_id query : Option String) (run_after : Int) (internal : Bool) (cmd : ACLK_CMD)
    (s : QueueState) (l : List (Nat × query_fields))
    (hc : Chain s.heap s.aclk_query_head l) (a : Nat) (lq : Option Nat) (d : query_fields)
    (hfind : find_list topic data msg_id query l none = .ok (some (a, lq)))
    (hmem : (a, d) ∈ l) (hsame : d.run_after = to_int (now + run_after)) :
    aclk_queue_query true now topic data msg_id query run_after internal cmd s = .ok (0, s) := by
  obtain ⟨r, hr, hfld⟩ := chain_mem_deref _ _ hc (a, d) hmem
  have hr1 : deref s.heap a = some r := hr
  have hfld1 : r.toquery_fields = d := hfld
  have hra : r.run_after = to_int (now + run_after) := by rw [← hsame, ← hfld1]
  simp [aclk_queue_query, aclk_query_find_eq s topic data msg_id query cmd l hc, hfind,
    load_of_deref hr1, hra]

/-- A connected `aclk_queue_query` whose search finds a record due at another
time takes that record out, links the new one and returns 0. -/
theorem aclk_queue_query_replace (now : Int) (topic : String) (data : Nat)
    (msg_id query : Option String) (run_after : Int) (internal : Bool) (cmd : ACLK_CMD)
    (s : QueueState) (l1 l2 : List (Nat × query_fields)) (a : Nat) (d : query_fields)
    (lq : Option Nat)
    (hc : Chain s.heap s.aclk_query_head (l1 ++ (a, d) :: l2))
    (htail : s.aclk_query_tail = none)
    (hfind : find_list topic data msg_id query (l1 ++ (a, d) :: l2) none = .ok (some (a, lq)))
    (hdiff : d.run_after ≠ to_int (now + run_after)) :
    ∃ s1, aclk_queue_query true now topic data msg_id query run_after internal cmd s
        = .ok (0, s1) ∧
      Chain s1.heap s1.aclk_query_head
        (insert_list (s.heap.length,
          new_query_fields topic data msg_id query (to_int (now + run_after)) internal cmd)
          (l1 ++ l2)) ∧
      s1.aclk_query_tail = none ∧ s1.count = count_inc (count_dec s.count) ∧
      s1.heap.length = s.heap.length + 1 := by
  obtain ⟨r, hr, hfld⟩ := chain_mem_deref _ _ hc (a, d) (by simp)
  have hr1 : deref s.heap a = some r := hr
  have hfld1 : r.toquery_fields = d := hfld
  have hra : r.run_after ≠ to_int (now + run_after) := by
    intro h
    apply hdiff
    rw [← h, ← hfld1]
  obtain ⟨l1', d', l2', hl, _, _, _, hlq⟩ :=
    find_list_some topic data msg_id query a lq _ none hfind
  have hnd := chain_nodup _ _ hc
  have hlq1 : (l1 = [] ∧ lq = none) ∨ ∃ l0 y, l1 = l0 ++ [y] ∧ lq = some y.1 := by
    have hl1 : l1' = l1 := ((split_unique l1 l1' hl rfl hnd).1).symm
    rw [← hl1]
    exact hlq
  obtain ⟨s1, hs1, hch1, ht1, hcnt1, hlen1, _⟩ := remove_double_spec s a d lq l1 l2 hc hlq1
  obtain ⟨s2, hs2, hch2, ht2, hcnt2, hlen2⟩ := link_new_spec s1
    (new_query_fields topic data msg_id query (to_int (now + run_after)) internal cmd)
    (l1 ++ l2) hch1 (ht1.trans htail)
  refine ⟨s2, ?_, ?_, ht2, ?_, ?_⟩
  · simp [aclk_queue_query, aclk_query_find_eq s topic data msg_id query cmd _ hc, hfind,
      load_of_deref hr1, hra, hs1, hs2]
  · rw [← hlen1]
    exact hch2
  · rw [hcnt2, hcnt1]
  · rw [hlen2, hlen1]

/-! ## The list operations keep order, length and keys -/

theorem insert_list_length (x : Nat × query_fields) (l : List (Nat × query_fields)) :
    (insert_list x l).length = l.length + 1 := by
  have h := congrArg List.length (List.takeWhile_append_dropWhile
    (fun y : Nat × query_fields => decide (y.2.run_after ≤ x.2.run_after)) l)
  simp only [List.length_append] at h
  simp only [insert_list, List.length_append, List.length_cons]
  omega

theorem insert_list_countP (p : Nat × query_fields → Bool) (x : Nat × query_fields)
    (l : List (Nat × query_fields)) :
    (insert_list x l).countP p = l.countP p + if p x then 1 else 0 := by
  have h := congrArg (List.countP p) (List.takeWhile_append_dropWhile
    (fun y : Nat × query_fields => decide (y.2.run_after ≤ x.2.run_after)) l)
  simp only [List.countP_append] at h
  simp only [insert_list, List.countP_append, List.countP_cons]
  omega

theorem takeWhile_all {α : Type} (p : α → Bool) :
    ∀ (l : List α), ∀ x ∈ l.takeWhile p, p x = true
  | [], x, hx => by simp at hx
  | y :: l, x, hx => by
    by_cases hy : p y = true
    · rw [List.takeWhile_cons, if_pos hy] at hx
      rcases List.mem_cons.1 hx with rfl | hx
      · exact hy
      · exact takeWhile_all p l x hx
    · rw [List.takeWhile_cons, if_neg hy] at hx
      simp at hx

theorem ordered_dropWhile_gt (t : Int) (l : List (Nat × query_fields)) (ho : Ordered l) :
    ∀ x ∈ l.dropWhile (fun y => decide (y.2.run_after ≤ t)), t < x.2.run_after := by
  intro x hx
  generalize hd : l.dropWhile (fun y => decide (y.2.run_after ≤ t)) = dl at hx
  cases dl with
  | nil => simp at hx
  | cons z tl =>
    have hz := dropWhile_head_false _ _ _ _ hd
    have hzt : t < z.2.run_after := by simpa using hz
    have hod : Ordered (z :: tl) := by
      rw [← hd]
      exact List.Pairwise.sublist (List.dropWhile_sublist _) ho
    rcases List.mem_cons.1 hx with rfl | hx
    · exact hzt
    · have := (List.pairwise_cons.1 hod).1 x hx
      exact lt_of_lt_of_le hzt this

theorem ordered_insert (x : Nat × query_fields) (l : List (Nat × query_fields))
    (ho : Ordered l) : Ordered (insert_list x l) := by
  unfold Ordered insert_list
  rw [List.pairwise_append]
  refine ⟨List.Pairwise.sublist (List.takeWhile_sublist _) ho, ?_, ?_⟩
  · rw [List.pairwise_cons]
    refine ⟨?_, List.Pairwise.sublist (List.dropWhile_sublist _) ho⟩
    intro y hy
    exact le_of_lt (ordered_dropWhile_gt _ l ho y hy)
  · intro a ha b hb
    have hle : a.2.run_after ≤ x.2.run_after := by
      simpa using takeWhile_all _ l a ha
    rcases List.mem_cons.1 hb with rfl | hb
    · exact hle
    · exact le_trans hle (le_of_lt (ordered_dropWhile_gt _ l ho b hb))

theorem sublist_remove_middle {α : Type} (l1 : List α) (x : α) (l2 : List α) :
    (l1 ++ l2).Sublist (l1 ++ x :: l2) :=
  List.Sublist.append (List.Sublist.refl l1) (List.sublist_cons_self x l2)

theorem count_dec_iterate (n : Nat) : ∀ (k c : Nat), c = (n + k) % 4294967296 →
    count_dec^[k] c = n % 4294967296
  | 0, c, h => by simpa using h
  | k + 1, c, h => by
    rw [Function.iterate_succ_apply]
    apply count_dec_iterate n k
    unfold count_dec
    omega

theorem query_matches_of_key (t : String) (d : Nat) (m q : String) (f : query_fields)
    (hk : key_of f = (t, d, some m, some q)) :
    query_matches t d (some m) (some q) f = .ok true := by
  simp only [key_of, Prod.mk.injEq] at hk
  obtain ⟨h1, h2, h3, h4⟩ := hk
  simp [query_matches, strcmp_eq, h1, h2, h3, h4]

theorem key_of_query_matches (t : String) (d : Nat) (m q : String) (f : query_fields)
    (hd : d ≠ 0) (hm : query_matches t d (some m) (some q) f = .ok true) :
    key_of f = (t, d, some m, some q) := by
  obtain ⟨rn, cmd, tp, dt, mi, qu, del⟩ := f
  simp only [query_matches, strcmp_eq] at hm
  simp only [key_of]
  by_cases h1 : tp = t
  · subst h1
    cases qu with
    | none => simp at hm
    | some q0 =>
      by_cases h2 : q0 = q
      · subst h2
        by_cases h3 : d = dt
        · subst h3
          cases mi with
          | none => simp at hm
          | some m0 =>
            by_cases h4 : m0 = m
            · subst h4
              rfl
            · simp [h4] at hm
        · simp [hd, h3] at hm
      · simp [h2] at hm
  · simp [h1] at hm

theorem chain_mark_deleted {h : Heap} (a : Nat) (r : aclk_query) (hr : deref h a = some r) :
    ∀ (l : List (Nat × query_fields)) (p : Option Nat), Chain h p l →
    Chain (h.set a (some { r with deleted := true })) p (l.map (mark_entry a))
  | [], _, hc => hc
  | y :: l, p, hc => by
    simp only [Chain] at hc
    obtain ⟨hp, ry, hry, hfld, hcl⟩ := hc
    have ih := chain_mark_deleted a r hr l _ hcl
    by_cases hya : y.1 = a
    · have hrr : r = ry := by
        rw [hya, hr] at hry
        exact Option.some.inj hry
      subst hrr
      refine ⟨by simp [mark_entry, hya, hp], { r with deleted := true }, ?_, ?_, ?_⟩
      · simp only [mark_entry, hya, if_true]
        exact deref_set_eq _ _ (deref_lt hr)
      · simp [mark_entry, hya, ← hfld]
      · exact ih
    · refine ⟨by simp [mark_entry, hya, hp], ry, ?_, ?_, ih⟩
      · simp only [mark_entry, hya, if_false]
        rw [deref_set_ne _ _ hya]
        exact hry
      · simp [mark_entry, hya, hfld]

theorem mark_entry_run_after (a : Nat) (y : Nat × query_fields) :
    (mark_entry a y).2.run_after = y.2.run_after := by
  unfold mark_entry
  split <;> rfl

theorem mark_entry_live (a : Nat) (k : String × Nat × Option String × Option String)
    (y : Nat × query_fields) (h : live_with_key k (mark_entry a y) = true) :
    live_with_key k y = true := by
  unfold mark_entry at h
  split at h
  · simp [live_with_key] at h
  · exact h

theorem countP_mark_le (a : Nat) (k : String × Nat × Option String × Option String) :
    ∀ (l : List (Nat × query_fields)),
    (l.map (mark_entry a)).countP (live_with_key k) ≤ l.countP (live_with_key k)
  | [] => by simp
  | y :: l => by
    have ih := countP_mark_le a k l
    simp only [List.map_cons, List.countP_cons]
    by_cases h : live_with_key k (mark_entry a y) = true
    · have := mark_entry_live a k y h
      rw [if_pos h, if_pos this]
      omega
    · rw [if_neg h]
      split <;> omega

/-! ## The invariant of the reachable states -/

theorem new_key_eq (topic : String) (data : Nat) (msg_id query : Option String) (ra : Int)
    (internal : Bool) (cmd : ACLK_CMD) (t : String) (d : Nat) (m q : String)
    (h : key_of (new_query_fields topic data msg_id query ra internal cmd)
      = (t, d, some m, some q)) :
    topic = t ∧ data = d ∧ msg_id = some m ∧ query = some q := by
  simp only [key_of, new_query_fields, Prod.mk.injEq] at h
  obtain ⟨h1, h2, h3, h4⟩ := h
  cases internal with
  | true => simp at h3
  | false => exact ⟨h1, h2, by simpa using h3, h4⟩

theorem live_new_args (topic : String) (data : Nat) (msg_id query : Option String) (ra : Int)
    (internal : Bool) (cmd : ACLK_CMD) (n : Nat) (t : String) (d : Nat) (m q : String)
    (h : live_with_key (t, d, some m, some q)
      (n, new_query_fields topic data msg_id query ra internal cmd) = true) :
    topic = t ∧ data = d ∧ msg_id = some m ∧ query = some q := by
  simp only [live_with_key, Bool.and_eq_true, decide_eq_true_eq] at h
  exact new_key_eq topic data msg_id query ra internal cmd t d m q h.2

theorem inv_init : QueueInv aclk_queue_init [] := by
  refine ⟨rfl, rfl, List.Pairwise.nil, rfl, ?_⟩
  intro t d m q _
  simp

theorem inv_enqueue_new (now : Int) (topic : String) (data : Nat)
    (msg_id query : Option String) (run_after : Int) (internal : Bool) (cmd : ACLK_CMD)
    (s s1 : QueueState) (l : List (Nat × query_fields)) (hinv : QueueInv s l)
    (hfind : find_list topic data msg_id query l none = .ok none)
    (hch : Chain s1.heap s1.aclk_query_head
      (insert_list (s.heap.length,
        new_query_fields topic data msg_id query (to_int (now + run_after)) internal cmd) l))
    (ht : s1.aclk_query_tail = none) (hcnt : s1.count = count_inc s.count) :
    QueueInv s1 (insert_list (s.heap.length,
        new_query_fields topic data msg_id query (to_int (now + run_after)) internal cmd) l) := by
  obtain ⟨_, _, hord, hc, hkey⟩ := hinv
  refine ⟨hch, ht, ordered_insert _ _ hord, ?_, ?_⟩
  · rw [hcnt, hc, insert_list_length]
    unfold count_inc
    omega
  · intro t d m q hd
    rw [insert_list_countP]
    split
    · rename_i hlive
      obtain ⟨rfl, rfl, rfl, rfl⟩ := live_new_args _ _ _ _ _ _ _ _ _ _ _ _ hlive
      have hnone := find_list_none _ _ _ _ l none hfind
      have hzero : l.countP (live_with_key (topic, data, some m, some q)) = 0 := by
        rw [List.countP_eq_zero]
        intro x hx hl
        simp only [live_with_key, Bool.and_eq_true, Bool.not_eq_true', decide_eq_true_eq] at hl
        have := hnone x hx
        rw [if_neg (by simp [hl.1]), query_matches_of_key _ _ _ _ _ hl.2] at this
        simp at this
      omega
    · have := hkey t d m q hd
      omega

theorem inv_enqueue_replace (now : Int) (topic : String) (data : Nat)
    (msg_id query : Option String) (run_after : Int) (internal : Bool) (cmd : ACLK_CMD)
    (s s1 : QueueState) (l1 l2 : List (Nat × query_fields)) (a : Nat) (d : query_fields)
    (hinv : QueueInv s (l1 ++ (a, d) :: l2))
    (hdel : d.deleted = false)
    (hmatch : query_matches topic data msg_id query d = .ok true)
    (hch : Chain s1.heap s1.aclk_query_head
      (insert_list (s.heap.length,
        new_query_fields topic data msg_id query (to_int (now + run_after)) internal cmd)
        (l1 ++ l2)))
    (ht : s1.aclk_query_tail = none) (hcnt : s1.count = count_inc (count_dec s.count)) :
    QueueInv s1 (insert_list (s.heap.length,
        new_query_fields topic data msg_id query (to_int (now + run_after)) internal cmd)
        (l1 ++ l2)) := by
  obtain ⟨_, _, hord, hc, hkey⟩ := hinv
  have hsub := sublist_remove_middle l1 (a, d) l2
  refine ⟨hch, ht, ordered_insert _ _ (List.Pairwise.sublist hsub hord), ?_, ?_⟩
  · rw [hcnt, hc, insert_list_length]
    simp only [List.length_append, List.length_cons]
    unfold count_inc count_dec
    omega
  · intro t d0 m q hd
    rw [insert_list_countP]
    have hk := hkey t d0 m q hd
    have hle := List.Sublist.countP_le (live_with_key (t, d0, some m, some q)) hsub
    split
    · rename_i hlive
      obtain ⟨rfl, rfl, rfl, rfl⟩ := live_new_args _ _ _ _ _ _ _ _ _ _ _ _ hlive
      have hkd := key_of_query_matches _ _ _ _ d hd hmatch
      have hld : live_with_key (topic, data, some m, some q) (a, d) = true := by
        simp [live_with_key, hdel, hkd]
      simp only [List.countP_append, List.countP_cons, hld, if_true] at hk ⊢
      omega
    · omega

theorem inv_enqueue (aclk_connected : Bool) (now : Int) (topic : String) (data : Nat)
    (msg_id query : Option String) (run_after : Int) (internal : Bool) (cmd : ACLK_CMD)
    (s s1 : QueueState) (rc : Int) (l : List (Nat × query_fields)) (hinv : QueueInv s l)
    (hstep : aclk_queue_query aclk_connected now topic data msg_id query run_after internal
      cmd s = .ok (rc, s1)) :
    ∃ l1, QueueInv s1 l1 := by
  cases aclk_connected with
  | false =>
    simp only [aclk_queue_query, Bool.not_false, if_true, Except.ok.injEq, Prod.mk.injEq] at hstep
    rw [← hstep.2]
    exact ⟨l, hinv⟩
  | true =>
    have hc := hinv.1
    have ht := hinv.2.1
    generalize hfind : find_list topic data msg_id query l none = found
    match found, hfind with
    | .error e, hfind =>
      simp [aclk_queue_query, aclk_query_find_eq s topic data msg_id query cmd l hc, hfind]
        at hstep
    | .ok none, hfind =>
      obtain ⟨s2, h1, h2, h3, h4, _⟩ :=
        aclk_queue_query_new now topic data msg_id query run_after internal cmd s l hc ht hfind
      rw [h1] at hstep
      simp only [Except.ok.injEq, Prod.mk.injEq] at hstep
      rw [← hstep.2]
      exact ⟨_, inv_enqueue_new now topic data msg_id query run_after internal cmd s s2 l hinv
        hfind h2 h3 h4⟩
    | .ok (some (a, lq)), hfind =>
      obtain ⟨l1, d, l2, hl, hdel, hmatch, _, _⟩ :=
        find_list_some topic data msg_id query a lq l none hfind
      subst hl
      by_cases hsame : d.run_after = to_int (now + run_after)
      · have := aclk_queue_query_same now topic data msg_id query run_after internal cmd s _
          hc a lq d hfind (by simp) hsame
        rw [this] at hstep
        simp only [Except.ok.injEq, Prod.mk.injEq] at hstep
        rw [← hstep.2]
        exact ⟨_, hinv⟩
      · obtain ⟨s2, h1, h2, h3, h4, _⟩ :=
          aclk_queue_query_replace now topic data msg_id query run_after internal cmd s l1 l2
            a d lq hc ht hfind hsame
        rw [h1] at hstep
        simp only [Except.ok.injEq, Prod.mk.injEq] at hstep
        rw [← hstep.2]
        exact ⟨_, inv_enqueue_replace now topic data msg_id query run_after internal cmd s s2
          l1 l2 a d hinv hdel hmatch h2 h3 h4⟩

theorem inv_sublist (s s1 : QueueState) (l l1 : List (Nat × query_fields))
    (hinv : QueueInv s l) (hsub : l1.Sublist l)
    (hch : Chain s1.heap s1.aclk_query_head l1) (ht : s1.aclk_query_tail = none)
    (hcnt : s1.count = l1.length % 4294967296) : QueueInv s1 l1 := by
  obtain ⟨_, _, hord, _, hkey⟩ := hinv
  refine ⟨hch, ht, List.Pairwise.sublist hsub hord, hcnt, ?_⟩
  intro t d m q hd
  exact le_trans (List.Sublist.countP_le _ hsub) (hkey t d m q hd)

theorem inv_pop (now : Int) (s s1 : QueueState) (res : Option Nat)
    (l : List (Nat × query_fields)) (hinv : QueueInv s l)
    (hstep : aclk_queue_pop now s = .ok (res, s1)) :
    ∃ l1, QueueInv s1 l1 ∧ l1.Sublist l := by
  have hc := hinv.1
  have ht := hinv.2.1
  have hcount := hinv.2.2.2.1
  obtain ⟨s2, _, hch, htail, hcnt, _, _, _, hcases⟩ := aclk_queue_pop_spec now s l hc
  have hlen := congrArg List.length
    (List.takeWhile_append_dropWhile (fun x : Nat × query_fields => x.2.deleted) l)
  simp only [List.length_append] at hlen
  have hcnt2 : s2.count = (l.dropWhile (fun x => x.2.deleted)).length % 4294967296 := by
    rw [hcnt]
    apply count_dec_iterate
    rw [hcount]
    congr 1
    omega
  have ht2 : s2.aclk_query_tail = none := by
    rw [htail, ht]
    simp
  rcases hcases with ⟨_, hp⟩ | ⟨x, t, _, _, _, hp⟩ | ⟨x, t, s3, hd, _, _, hp, _, hch3, hcnt3, ht3⟩
  · rw [hp] at hstep
    simp only [Except.ok.injEq, Prod.mk.injEq] at hstep
    rw [← hstep.2]
    exact ⟨_, inv_sublist s s2 l _ hinv (List.dropWhile_sublist _) hch ht2 hcnt2,
      List.dropWhile_sublist _⟩
  · rw [hp] at hstep
    simp only [Except.ok.injEq, Prod.mk.injEq] at hstep
    rw [← hstep.2]
    exact ⟨_, inv_sublist s s2 l _ hinv (List.dropWhile_sublist _) hch ht2 hcnt2,
      List.dropWhile_sublist _⟩
  · rw [hp] at hstep
    simp only [Except.ok.injEq, Prod.mk.injEq] at hstep
    rw [← hstep.2]
    have hsub : t.Sublist l := by
      have h1 : t.Sublist (x :: t) := List.sublist_cons_self x t
      rw [← hd] at h1
      exact h1.trans (List.dropWhile_sublist _)
    refine ⟨t, inv_sublist s s3 l t hinv hsub hch3 ?_ ?_, hsub⟩
    · rw [ht3, ht2]
      simp
    · rw [hcnt3, hcnt2, hd]
      simp only [List.length_cons]
      unfold count_dec
      omega

theorem inv_delete (s s1 : QueueState) (l : List (Nat × query_fields))
    (x : Nat × query_fields) (hinv : QueueInv s l) (hx : x ∈ l)
    (hstep : mark_deleted s x.1 = .ok s1) :
    QueueInv s1 (l.map (mark_entry x.1)) := by
  obtain ⟨hc, ht, hord, hcnt, hkey⟩ := hinv
  obtain ⟨r, hr, _⟩ := chain_mem_deref l _ hc x hx
  simp only [mark_deleted, load_of_deref hr, Except.ok.injEq] at hstep
  rw [← hstep]
  refine ⟨chain_mark_deleted x.1 r hr l _ hc, ht, ?_, by simpa using hcnt, ?_⟩
  · unfold Ordered
    rw [List.pairwise_map]
    simpa only [mark_entry_run_after] using hord
  · intro t d m q hd
    exact le_trans (countP_mark_le _ _ l) (hkey t d m q hd)

theorem inv_free (s : QueueState) (h : Heap) (l : List (Nat × query_fields)) (p : Nat)
    (hinv : QueueInv s l) (hp : p ∉ l.map Prod.fst)
    (hstep : aclk_query_free s.heap (some p) = .ok h) :
    QueueInv { s with heap := h } l := by
  obtain ⟨hc, ht, hord, hcnt, hkey⟩ := hinv
  simp only [aclk_query_free] at hstep
  split at hstep
  · simp at hstep
  · simp only [Except.ok.injEq] at hstep
    rw [← hstep]
    exact ⟨chain_set p none l _ hc hp, ht, hord, hcnt, hkey⟩

/-- Every reachable state satisfies the invariant for the list of its linked
records. -/
theorem reachable_inv (s : QueueState) (h : Reachable s) : ∃ l, QueueInv s l := by
  induction h with
  | init => exact ⟨[], inv_init⟩
  | enqueue s s1 conn now topic data msg_id query run_after internal cmd rc _ hstep ih =>
    obtain ⟨l, hinv⟩ := ih
    exact inv_enqueue conn now topic data msg_id query run_after internal cmd s s1 rc l hinv
      hstep
  | pop s s1 now res _ hstep ih =>
    obtain ⟨l, hinv⟩ := ih
    obtain ⟨l1, h1, _⟩ := inv_pop now s s1 res l hinv hstep
    exact ⟨l1, h1⟩
  | delete s s1 l0 x _ hc hx hstep ih =>
    obtain ⟨l, hinv⟩ := ih
    have hl : l0 = l := chain_functional _ _ _ hc hinv.1
    subst hl
    exact ⟨_, inv_delete s s1 l0 x hinv hx hstep⟩
  | free s h l0 p _ hc hp hstep ih =>
    obtain ⟨l, hinv⟩ := ih
    have hl : l0 = l := chain_functional _ _ _ hc hinv.1
    subst hl
    exact ⟨_, inv_free s h l0 p hinv hp hstep⟩

/-! ## The claims -/

theorem one_alarm_queue_reachable : Reachable one_alarm_queue :=
  Reachable.enqueue aclk_queue_init one_alarm_queue true 0 "alarm/1" 0 none
    (some "alarm text") 5 true .ACLK_CMD_ALARM 0 Reachable.init (by decide)

theorem pop_many_sublist : ∀ (clock : List Int) (s : QueueState)
    (l : List (Nat × query_fields)), QueueInv s l →
    ∃ rs s1, pop_many clock s = .ok (rs, s1) ∧ rs.Sublist l
  | [], s, l, _ => ⟨[], s, rfl, List.nil_sublist l⟩
  | now :: clock, s, l, hinv => by
    obtain ⟨s2, _, hch, _, _, _, _, _, hcases⟩ := aclk_queue_pop_spec now s l hinv.1
    rcases hcases with ⟨_, hp⟩ | ⟨x, t, _, _, _, hp⟩ |
      ⟨x, t, s3, hd, _, _, hp, hheap, hch3, _, _⟩
    · obtain ⟨l1, hinv1, hsub⟩ := inv_pop now s s2 none l hinv hp
      obtain ⟨rs, s4, h1, h2⟩ := pop_many_sublist clock s2 l1 hinv1
      exact ⟨rs, s4, by simp [pop_many, hp, h1], h2.trans hsub⟩
    · obtain ⟨l1, hinv1, hsub⟩ := inv_pop now s s2 none l hinv hp
      obtain ⟨rs, s4, h1, h2⟩ := pop_many_sublist clock s2 l1 hinv1
      exact ⟨rs, s4, by simp [pop_many, hp, h1], h2.trans hsub⟩
    · obtain ⟨l1, hinv1, _⟩ := inv_pop now s s3 (some x.1) l hinv hp
      have hl1 : l1 = t := chain_functional _ _ _ hinv1.1 hch3
      subst hl1
      rw [hd] at hch
      obtain ⟨_, r, hr, hfld, _⟩ := hch
      rw [← hheap] at hr
      obtain ⟨rs, s4, h1, h2⟩ := pop_many_sublist clock s3 l1 hinv1
      refine ⟨x :: rs, s4, ?_, ?_⟩
      · simp [pop_many, hp, load_of_deref hr, h1, hfld]
      · have h3 : (x :: rs).Sublist (x :: l1) := h2.cons_cons x
        rw [← hd] at h3
        exact h3.trans (List.dropWhile_sublist _)

/-- C1 (ordering invariant): in every state reachable from the empty queue
(by `aclk_queue_query` and `aclk_queue_pop` at any clock values, also when
records are marked deleted in between) the records linked from the head are in
non-decreasing order of `run_after`, and the records that successive calls of
`aclk_queue_pop` hand out, at whatever clock values, come in non-decreasing
order of `run_after`. -/
theorem ordering_invariant (s : QueueState) (h : Reachable s) :
    ∃ l, Chain s.heap s.aclk_query_head l ∧ Ordered l ∧
      ∀ clock : List Int, ∃ rs s1, pop_many clock s = .ok (rs, s1) ∧ Ordered rs := by
  obtain ⟨l, hinv⟩ := reachable_inv s h
  refine ⟨l, hinv.1, hinv.2.2.1, ?_⟩
  intro clock
  obtain ⟨rs, s1, h1, h2⟩ := pop_many_sublist clock s l hinv
  exact ⟨rs, s1, h1, List.Pairwise.sublist h2 hinv.2.2.1⟩

theorem chart_queue_mixed_reachable : Reachable chart_queue_mixed :=
  Reachable.enqueue _ chart_queue_mixed true 0 "_chart" 4096 none (some "system.cpu") 10 true
    .ACLK_CMD_CHART 0
    (Reachable.enqueue aclk_queue_init
      { heap := [some { toquery_fields := chart_fields 0 20, next := none }]
        aclk_query_head := some 0
        aclk_query_tail := none
        count := 1 }
      true 0 "_chart" 0 none (some "system.cpu") 20 true .ACLK_CMD_CHART 0
      Reachable.init (by decide))
    (by decide)

theorem chart_queue_three_reachable : Reachable chart_queue_three :=
  Reachable.enqueue chart_queue_mixed chart_queue_three true 0 "_chart" 12288 none
    (some "system.cpu") 15 true .ACLK_CMD_CHART 0 chart_queue_mixed_reachable (by decide)

theorem chart_queue_three_chain :
    Chain chart_queue_three.heap chart_queue_three.aclk_query_head
      [(1, chart_fields 4096 10), (2, chart_fields 12288 15), (0, chart_fields 0 20)] :=
  ⟨rfl, _, rfl, rfl, rfl, _, rfl, rfl, rfl, _, rfl, rfl, rfl⟩

theorem ordering_invariant_witness :
    Reachable chart_queue_mixed ∧
    aclk_queue_query true 0 "_chart" 12288 none (some "system.cpu") 15 true .ACLK_CMD_CHART
      chart_queue_mixed = .ok (0, chart_queue_three) ∧
    Reachable chart_queue_three ∧
    Chain chart_queue_three.heap chart_queue_three.aclk_query_head
      [(1, chart_fields 4096 10), (2, chart_fields 12288 15), (0, chart_fields 0 20)] ∧
    (∃ l, Chain chart_queue_three.heap chart_queue_three.aclk_query_head l ∧ Ordered l ∧
      ∀ clock : List Int, ∃ rs s1, pop_many clock chart_queue_three = .ok (rs, s1) ∧
        Ordered rs) ∧
    pop_many [12, 30, 30] chart_queue_three
      = .ok ([(1, chart_fields 4096 10), (2, chart_fields 12288 15), (0, chart_fields 0 20)],
          { chart_queue_three with aclk_query_head := none, count := 0 }) :=
  ⟨chart_queue_mixed_reachable, by decide, chart_queue_three_reachable, chart_queue_three_chain,
    ordering_invariant chart_queue_three chart_queue_three_reachable, by decide⟩

theorem cloud_queue_reachable : Reachable cloud_queue :=
  Reachable.enqueue aclk_queue_init cloud_queue true 0 "inbox/cmd" 8192 (some "m1")
    (some "/api/v1/info") 0 false .ACLK_CMD_CLOUD_QUERY_2 0 Reachable.init (by decide)

/-- C2, as stated, fails: queueing a chart update without a host pointer (a
`NULL` data pointer matches any record in `aclk_query_find`) replaces the
update of the host at 4096 that stands first, and the queue reached holds two
records that are not deleted and have the same key. -/
theorem dedup_counterexample :
    Reachable (chart_queue_double 30) ∧
    Chain (chart_queue_double 30).heap (chart_queue_double 30).aclk_query_head
      [(0, chart_fields 0 20), (2, chart_fields 0 30)] ∧
    key_of (chart_fields 0 20) = key_of (chart_fields 0 30) ∧
    [(0, chart_fields 0 20), (2, chart_fields 0 30)].countP
      (live_with_key ("_chart", 0, none, some "system.cpu")) = 2 := by
  refine ⟨?_, ?_, by decide, by decide⟩
  · exact Reachable.enqueue chart_queue_mixed (chart_queue_double 30) true 0 "_chart" 0 none
      (some "system.cpu") 30 true .ACLK_CMD_CHART 0 chart_queue_mixed_reachable (by decide)
  · exact ⟨rfl, _, rfl, rfl, rfl, _, rfl, rfl, rfl⟩

/-- C2 (deduplication invariant), amended: in every reachable state, for every
key whose data pointer, `msg_id` and query are all present (so that
`aclk_query_find` compares every part of it), at most one record that is not
deleted and has exactly that key is linked in the queue. -/
theorem dedup_full_key (s : QueueState) (h : Reachable s) :
    ∃ l, Chain s.heap s.aclk_query_head l ∧
      ∀ (t : String) (d : Nat) (m q : String), d ≠ 0 →
        l.countP (live_with_key (t, d, some m, some q)) ≤ 1 := by
  obtain ⟨l, hinv⟩ := reachable_inv s h
  exact ⟨l, hinv.1, hinv.2.2.2.2⟩

theorem cloud_queue_pair_reachable : Reachable cloud_queue_pair :=
  Reachable.enqueue cloud_queue cloud_queue_pair true 0 "inbox/cmd" 8192 (some "m2")
    (some "/api/v1/charts") 5 false .ACLK_CMD_CLOUD_QUERY_2 0 cloud_queue_reachable (by decide)

theorem cloud_queue_requeued_reachable : Reachable cloud_queue_requeued :=
  Reachable.enqueue cloud_queue_pair cloud_queue_requeued true 0 "inbox/cmd" 8192 (some "m1")
    (some "/api/v1/info") 7 false .ACLK_CMD_CLOUD_QUERY_2 0 cloud_queue_pair_reachable
    (by decide)

theorem cloud_queue_requeued_chain :
    Chain cloud_queue_requeued.heap cloud_queue_requeued.aclk_query_head
      [(1, charts_fields 5), (2, cloud_fields 7)] :=
  ⟨rfl, _, rfl, rfl, rfl, _, rfl, rfl, rfl⟩

theorem dedup_full_key_witness :
    Reachable cloud_queue_pair ∧
    aclk_query_find cloud_queue_pair "inbox/cmd" 8192 (some "m1") (some "/api/v1/info")
      .ACLK_CMD_CLOUD_QUERY_2 = .ok (some (0, none)) ∧
    aclk_queue_query true 0 "inbox/cmd" 8192 (some "m1") (some "/api/v1/info") 7 false
      .ACLK_CMD_CLOUD_QUERY_2 cloud_queue_pair = .ok (0, cloud_queue_requeued) ∧
    Reachable cloud_queue_requeued ∧
    Chain cloud_queue_requeued.heap cloud_queue_requeued.aclk_query_head
      [(1, charts_fields 5), (2, cloud_fields 7)] ∧
    [(1, charts_fields 5), (2, cloud_fields 7)].countP
      (live_with_key ("inbox/cmd", 8192, some "m1", some "/api/v1/info")) = 1 ∧
    ∃ l, Chain cloud_queue_requeued.heap cloud_queue_requeued.aclk_query_head l ∧
      ∀ (t : String) (d : Nat) (m q : String), d ≠ 0 →
        l.countP (live_with_key (t, d, some m, some q)) ≤ 1 :=
  ⟨cloud_queue_pair_reachable, by decide, by decide, cloud_queue_requeued_reachable,
    cloud_queue_requeued_chain, by decide,
    dedup_full_key cloud_queue_requeued cloud_queue_requeued_reachable⟩

theorem new_key (topic : String) (data : Nat) (msg_id query : Option String) (ra : Int)
    (internal : Bool) (cmd : ACLK_CMD) (hint : internal = true → msg_id = none) :
    key_of (new_query_fields topic data msg_id query ra internal cmd)
      = (topic, data, msg_id, query) := by
  cases internal with
  | true => simp [key_of, new_query_fields, hint rfl]
  | false => simp [key_of, new_query_fields]

theorem one_alarm_queue_chain :
    Chain one_alarm_queue.heap one_alarm_queue.aclk_query_head [(0, alarm_fields 5)] :=
  ⟨rfl, _, rfl, rfl, rfl⟩

/-- C4, as stated, fails: after the one record of `one_alarm_queue` is marked
deleted, the state is reachable, `aclk_query_size` still gives 1, and the one
linked record is deleted, so that no live record is linked. -/
theorem count_counterexample :
    mark_deleted one_alarm_queue 0 = .ok deleted_alarm_queue ∧
    Reachable deleted_alarm_queue ∧
    aclk_query_size deleted_alarm_queue = 1 ∧
    Chain deleted_alarm_queue.heap deleted_alarm_queue.aclk_query_head
      [(0, { alarm_fields 5 with deleted := true })] ∧
    ([(0, { alarm_fields 5 with deleted := true })].filter
      (fun x : Nat × query_fields => !x.2.deleted)).length = 0 := by
  refine ⟨by decide, ?_, rfl, ⟨rfl, _, rfl, rfl, rfl⟩, by decide⟩
  exact Reachable.delete one_alarm_queue deleted_alarm_queue [(0, alarm_fields 5)]
    (0, alarm_fields 5) one_alarm_queue_reachable one_alarm_queue_chain (by simp) (by decide)

/-- C4 (count invariant), amended: in every state reachable from the empty
queue by enqueue, pop and marking a queued record deleted, `count` (the value
`aclk_query_size` returns) equals the number of all records linked from the
head, those marked deleted included until `aclk_queue_pop` purges them, taken
modulo `2 ^ 32`; it is that number itself while fewer than `2 ^ 32` records
are linked, and the number of live records when none of them is deleted. -/
theorem count_invariant (s : QueueState) (h : Reachable s) :
    ∃ l, Chain s.heap s.aclk_query_head l ∧
      aclk_query_size s = l.length % 4294967296 ∧
      (l.length < 4294967296 → aclk_query_size s = l.length) ∧
      (l.length < 4294967296 → (∀ x ∈ l, x.2.deleted = false) →
        aclk_query_size s = (l.filter (fun x => !x.2.deleted)).length) := by
  obtain ⟨l, hinv⟩ := reachable_inv s h
  have hcnt : s.count = l.length % 4294967296 := hinv.2.2.2.1
  refine ⟨l, hinv.1, hcnt, ?_, ?_⟩
  · intro hlt
    unfold aclk_query_size
    omega
  · intro hlt hall
    have hf : l.filter (fun x => !x.2.deleted) = l := by
      rw [List.filter_eq_self]
      intro x hx
      simp [hall x hx]
    rw [hf]
    unfold aclk_query_size
    omega

theorem count_invariant_witness :
    Reachable deleted_alarm_queue ∧
    ∃ l, Chain deleted_alarm_queue.heap deleted_alarm_queue.aclk_query_head l ∧
      aclk_query_size deleted_alarm_queue = l.length % 4294967296 ∧
      (l.length < 4294967296 → aclk_query_size deleted_alarm_queue = l.length) ∧
      (l.length < 4294967296 → (∀ x ∈ l, x.2.deleted = false) →
        aclk_query_size deleted_alarm_queue = (l.filter (fun x => !x.2.deleted)).length) :=
  have hr : Reachable deleted_alarm_queue :=
    Reachable.delete one_alarm_queue deleted_alarm_queue [(0, alarm_fields 5)]
      (0, alarm_fields 5) one_alarm_queue_reachable one_alarm_queue_chain (by simp) (by decide)
  ⟨hr, count_invariant deleted_alarm_queue hr⟩

theorem pop_purge_live_head (fuel : Nat) (s : QueueState) (p : Nat) (r : aclk_query)
    (hhead : s.aclk_query_head = some p) (hr : deref s.heap p = some r)
    (hlive : r.deleted = false) : pop_purge (fuel + 1) s = .ok s := by
  simp [pop_purge, hhead, load_of_deref hr, hlive]

theorem pop_deferred (now : Int) (s : QueueState) (p : Nat) (r : aclk_query)
    (hhead : s.aclk_query_head = some p) (hr : deref s.heap p = some r)
    (hlive : r.deleted = false) (hlt : now < r.run_after) :
    aclk_queue_pop now s = .ok (none, s) := by
  simp [aclk_queue_pop, hhead, pop_purge_live_head _ s p r hhead hr hlive,
    load_of_deref hr, hlive, hlt]

theorem pop_many_deferred (s : QueueState) (p : Nat) (r : aclk_query)
    (hhead : s.aclk_query_head = some p) (hr : deref s.heap p = some r)
    (hlive : r.deleted = false) :
    ∀ clock : List Int, (∀ t ∈ clock, t < r.run_after) → pop_many clock s = .ok ([], s)
  | [], _ => rfl
  | now :: clock, h => by
    have h1 := pop_deferred now s p r hhead hr hlive (h now (by simp))
    have h2 := pop_many_deferred s p r hhead hr hlive clock
      (fun t ht => h t (List.mem_cons_of_mem _ ht))
    simp [pop_many, h1, h2]

/-- C5 (deferred readiness): for a queue whose head record is not deleted,
`aclk_queue_pop` at clock value `now` returns `NULL` and leaves the whole
state as it is while `now` is before the `run_after` of the head, however
often it is called; once `run_after <= now` it returns just that head record,
unlinks it (the head moves to its successor, the tail is reset when there is
none) and decrements `count`, and the record is then no longer linked, so it
is handed out once only. -/
theorem deferred_readiness (s : QueueState) (now : Int) (p : Nat) (r : aclk_query)
    (hhead : s.aclk_query_head = some p) (hr : deref s.heap p = some r)
    (hlive : r.deleted = false) :
    (now < r.run_after →
      aclk_queue_pop now s = .ok (none, s) ∧
      ∀ clock : List Int, (∀ t ∈ clock, t < r.run_after) →
        pop_many clock s = .ok ([], s)) ∧
    (r.run_after ≤ now →
      aclk_queue_pop now s = .ok (some p,
        { s with
          aclk_query_head := r.next
          aclk_query_tail := if r.next = none then none else s.aclk_query_tail
          count := count_dec s.count }) ∧
      (0 < s.count → s.count < 4294967296 → count_dec s.count = s.count - 1) ∧
      ∀ l, Chain s.heap s.aclk_query_head l →
        Chain s.heap r.next l.tail ∧ p ∉ l.tail.map Prod.fst) := by
  constructor
  · intro hlt
    exact ⟨pop_deferred now s p r hhead hr hlive hlt,
      pop_many_deferred s p r hhead hr hlive⟩
  · intro hle
    refine ⟨?_, ?_, ?_⟩
    · have hnot : ¬ now < r.run_after := not_lt.2 hle
      simp [aclk_queue_pop, hhead, pop_purge_live_head _ s p r hhead hr hlive,
        load_of_deref hr, hlive, hnot]
    · intro h0 h1
      unfold count_dec
      omega
    · intro l hc
      have hnd := chain_nodup l _ hc
      cases l with
      | nil =>
        simp only [Chain] at hc
        rw [hc] at hhead
        simp at hhead
      | cons x t =>
        simp only [Chain] at hc
        obtain ⟨hp, r0, hr0, _, hct⟩ := hc
        have hpx : p = x.1 := by
          rw [hhead] at hp
          exact Option.some.inj hp
        subst hpx
        rw [hr] at hr0
        have hrr : r = r0 := Option.some.inj hr0
        subst hrr
        simp only [List.map_cons, List.nodup_cons] at hnd
        exact ⟨hct, hnd.1⟩

theorem deferred_readiness_witness :
    (3 < (5 : Int) →
      aclk_queue_pop 3 one_alarm_queue = .ok (none, one_alarm_queue) ∧
      ∀ clock : List Int, (∀ t ∈ clock, t < (5 : Int)) →
        pop_many clock one_alarm_queue = .ok ([], one_alarm_queue)) ∧
    ((5 : Int) ≤ 3 →
      aclk_queue_pop 3 one_alarm_queue = .ok (some 0,
        { one_alarm_queue with
          aclk_query_head := none
          aclk_query_tail := if (none : Option Nat) = none then none
            else one_alarm_queue.aclk_query_tail
          count := count_dec one_alarm_queue.count }) ∧
      (0 < one_alarm_queue.count → one_alarm_queue.count < 4294967296 →
        count_dec one_alarm_queue.count = one_alarm_queue.count - 1) ∧
      ∀ l, Chain one_alarm_queue.heap one_alarm_queue.aclk_query_head l →
        Chain one_alarm_queue.heap none l.tail ∧ 0 ∉ l.tail.map Prod.fst) :=
  deferred_readiness one_alarm_queue 3 0
    { toquery_fields := alarm_fields 5, next := none } rfl rfl rfl

/-- C7, as stated, fails.  First, `chart_queue_mixed` holds a record that is
not deleted, matches the call and is due at the newly computed time 20, yet
the call changes the queue: `aclk_query_find` stops at the record of the host
at 4096, due at 10, which is replaced.  Second, an internal caller that
passes a `msg_id` stores a record without `msg_id`, and the same call repeated
on it compares the `msg_id` against `NULL`. -/
theorem idempotent_counterexample :
    (Chain chart_queue_mixed.heap chart_queue_mixed.aclk_query_head
        [(1, chart_fields 4096 10), (0, chart_fields 0 20)] ∧
      query_matches "_chart" 0 none (some "system.cpu") (chart_fields 0 20) = .ok true ∧
      (chart_fields 0 20).run_after = to_int (0 + 20) ∧
      aclk_queue_query true 0 "_chart" 0 none (some "system.cpu") 20 true .ACLK_CMD_CHART
        chart_queue_mixed = .ok (0, chart_queue_double 20) ∧
      chart_queue_double 20 ≠ chart_queue_mixed) ∧
    (∃ s1, aclk_queue_query true 0 "alarm/1" 0 (some "m1") (some "alarm text") 0 true
        .ACLK_CMD_ALARM aclk_queue_init = .ok (0, s1) ∧
      aclk_queue_query true 0 "alarm/1" 0 (some "m1") (some "alarm text") 0 true
        .ACLK_CMD_ALARM s1 = .error .null_string) := by
  refine ⟨⟨?_, by decide, by decide, by decide, by decide⟩, ?_⟩
  · exact ⟨rfl, _, rfl, rfl, rfl, _, rfl, rfl, rfl⟩
  · exact ⟨{ heap := [some { toquery_fields := alarm_fields 0, next := none }]
             aclk_query_head := some 0
             aclk_query_tail := none
             count := 1 }, by decide, by decide⟩

/-- C7 (idempotent re-enqueue), amended: when the record that
`aclk_query_find` returns for the call (the first linked record that is not
deleted and matches, a `NULL` data pointer, `msg_id` or query of the call
matching anything) is due at the newly computed `run_after`, a connected call
returns 0 and leaves the whole state as it is; and queueing the same content
twice at the same clock value on the empty queue, with no `msg_id` if the
caller is internal, leaves `aclk_query_size` at 1. -/
theorem idempotent_reenqueue (now : Int) (topic : String) (data : Nat)
    (msg_id query : Option String) (run_after : Int) (internal : Bool) (cmd : ACLK_CMD) :
    (∀ (s : QueueState) (l : List (Nat × query_fields)) (a : Nat) (lq : Option Nat)
      (d : query_fields),
      Chain s.heap s.aclk_query_head l →
      aclk_query_find s topic data msg_id query cmd = .ok (some (a, lq)) →
      (a, d) ∈ l → d.run_after = to_int (now + run_after) →
      aclk_queue_query true now topic data msg_id query run_after internal cmd s
        = .ok (0, s)) ∧
    ((internal = true → msg_id = none) →
      ∃ s1, aclk_queue_query true now topic data msg_id query run_after internal cmd
          aclk_queue_init = .ok (0, s1) ∧
        aclk_queue_query true now topic data msg_id query run_after internal cmd s1
          = .ok (0, s1) ∧
        aclk_query_size s1 = 1) := by
  constructor
  · intro s l a lq d hc hfind hmem hsame
    rw [aclk_query_find_eq s topic data msg_id query cmd l hc] at hfind
    exact aclk_queue_query_same now topic data msg_id query run_after internal cmd s l hc a lq d
      hfind hmem hsame
  · intro hint
    obtain ⟨s1, h1, h2, _, h4, _⟩ :=
      aclk_queue_query_new now topic data msg_id query run_after internal cmd aclk_queue_init []
        rfl rfl rfl
    have h2a : Chain s1.heap s1.aclk_query_head
        [(0, new_query_fields topic data msg_id query (to_int (now + run_after)) internal cmd)] :=
      h2
    have hk := new_key topic data msg_id query (to_int (now + run_after)) internal cmd hint
    simp only [key_of, Prod.mk.injEq] at hk
    obtain ⟨k1, k2, k3, k4⟩ := hk
    have hmatch : query_matches topic data msg_id query
        (new_query_fields topic data msg_id query (to_int (now + run_after)) internal cmd)
        = .ok true := by
      unfold query_matches
      rw [if_pos k1, k4, k2, k3]
      cases query <;> cases msg_id <;> simp [strcmp_eq]
    have hfind : find_list topic data msg_id query
        [(0, new_query_fields topic data msg_id query (to_int (now + run_after)) internal cmd)]
        none = .ok (some (0, none)) := by
      have hd : (new_query_fields topic data msg_id query (to_int (now + run_after))
        internal cmd).deleted = false := rfl
      simp [find_list, hd, hmatch]
    refine ⟨s1, h1, ?_, ?_⟩
    · exact aclk_queue_query_same now topic data msg_id query run_after internal cmd s1 _ h2a 0
        none (new_query_fields topic data msg_id query (to_int (now + run_after)) internal cmd)
        hfind (by simp) rfl
    · rw [aclk_query_size, h4]
      rfl

theorem idempotent_reenqueue_witness :
    aclk_queue_query true 0 "alarm/1" 0 none (some "alarm text") 5 true .ACLK_CMD_ALARM
      one_alarm_queue = .ok (0, one_alarm_queue) ∧
    ∃ s1, aclk_queue_query true 0 "alarm/1" 0 none (some "alarm text") 5 true .ACLK_CMD_ALARM
          aclk_queue_init = .ok (0, s1) ∧
        aclk_queue_query true 0 "alarm/1" 0 none (some "alarm text") 5 true .ACLK_CMD_ALARM s1
          = .ok (0, s1) ∧
        aclk_query_size s1 = 1 :=
  ⟨(idempotent_reenqueue 0 "alarm/1" 0 none (some "alarm text") 5 true .ACLK_CMD_ALARM).1
      one_alarm_queue [(0, alarm_fields 5)] 0 none (alarm_fields 5) one_alarm_queue_chain
      (by decide) (by simp) (by decide),
   (idempotent_reenqueue 0 "alarm/1" 0 none (some "alarm text") 5 true .ACLK_CMD_ALARM).2
      (fun _ => rfl)⟩

/-- C8, evaluated where it fails: `one_alarm_queue` holds one alarm due at 5;
the drain loop of `aclk_query_threads_cleanup`, run while the clock shows 0,
stops at the first `NULL` that `aclk_queue_pop` returns and leaves the record
linked and `count` at 1. -/
theorem cleanup_leaves_deferred :
    aclk_query_threads_cleanup (fun _ => 0) one_alarm_queue = .ok one_alarm_queue ∧
    aclk_query_size one_alarm_queue = 1 ∧
    Chain one_alarm_queue.heap one_alarm_queue.aclk_query_head [(0, alarm_fields 5)] :=
  ⟨by decide, rfl, one_alarm_queue_chain⟩

theorem pop_purge_head_live : ∀ (fuel : Nat) (s s1 : QueueState),
    pop_purge fuel s = .ok s1 →
    s1.aclk_query_head = none ∨
      ∃ p r, s1.aclk_query_head = some p ∧ deref s1.heap p = some r ∧ r.deleted = false
  | 0, s, s1, h => by simp [pop_purge] at h
  | fuel + 1, s, s1, h => by
    simp only [pop_purge] at h
    split at h
    · rename_i hnone
      simp only [Except.ok.injEq] at h
      rw [← h]
      exact Or.inl hnone
    · rename_i p hsome
      cases hr : deref s.heap p with
      | none => simp [load, hr] at h
      | some r =>
        simp only [load_of_deref hr] at h
        by_cases hdel : r.deleted = true
        · simp only [hdel, if_true, aclk_query_free, load_of_deref hr] at h
          exact pop_purge_head_live fuel _ s1 h
        · simp only [hdel, Bool.false_eq_true, if_false, Except.ok.injEq] at h
          rw [← h]
          exact Or.inr ⟨p, r, hsome, hr, by simpa using hdel⟩

theorem pop_never_deleted (now : Int) (s s1 : QueueState) (p : Nat)
    (h : aclk_queue_pop now s = .ok (some p, s1)) :
    ∃ r, deref s1.heap p = some r ∧ r.deleted = false := by
  simp only [aclk_queue_pop] at h
  split at h
  · simp at h
  · split at h
    · simp at h
    · rename_i s2 hpurge
      have hlive := pop_purge_head_live _ _ _ hpurge
      split at h
      · simp at h
      · rename_i q hq
        rcases hlive with hnone | ⟨q1, r, hq1, hr, hdel⟩
        · rw [hnone] at hq
          simp at hq
        · rw [hq1] at hq
          have : q1 = q := Option.some.inj hq
          subst this
          simp only [load_of_deref hr] at h
          split at h
          · simp at h
          · simp only [Except.ok.injEq, Prod.mk.injEq, Option.some.injEq] at h
            obtain ⟨h1, h2⟩ := h
            subst h1
            rw [← h2]
            exact ⟨r, hr, hdel⟩

/-- C9 (tombstones): in any state whatever, a record that `aclk_queue_pop`
returns is not marked deleted.  And for a queue whose linked records are `l`,
`aclk_queue_pop` returns, every record of the leading run of deleted records
is freed and no longer linked, `count` is decremented once for each of them
(and once more for a record that is returned), the records behind the run stay
linked in their order (without the returned one), and the tail pointer is
`NULL` whenever the call removed a record and left the queue empty. -/
theorem tombstones (s : QueueState) (now : Int) :
    (∀ p s1, aclk_queue_pop now s = .ok (some p, s1) →
      ∃ r, deref s1.heap p = some r ∧ r.deleted = false) ∧
    (∀ l, Chain s.heap s.aclk_query_head l →
      ∃ res s1, aclk_queue_pop now s = .ok (res, s1) ∧
        (∀ x ∈ l.takeWhile (fun x => x.2.deleted), deref s1.heap x.1 = none) ∧
        (res = none →
          Chain s1.heap s1.aclk_query_head (l.dropWhile (fun x => x.2.deleted)) ∧
          s1.count = count_dec^[(l.takeWhile (fun x => x.2.deleted)).length] s.count) ∧
        (∀ p, res = some p →
          ∃ d t, l.dropWhile (fun x => x.2.deleted) = (p, d) :: t ∧ d.deleted = false ∧
            d.run_after ≤ now ∧ Chain s1.heap s1.aclk_query_head t ∧
            s1.count = count_dec^[(l.takeWhile (fun x => x.2.deleted)).length + 1] s.count) ∧
        (s1.aclk_query_head = none →
          (l.takeWhile (fun x => x.2.deleted) ≠ [] ∨ res ≠ none) →
          s1.aclk_query_tail = none)) := by
  refine ⟨fun p s1 h => pop_never_deleted now s s1 p h, ?_⟩
  intro l hc
  obtain ⟨s2, _, hch, htail, hcnt, _, hfreed, _, hcases⟩ := aclk_queue_pop_spec now s l hc
  rcases hcases with ⟨hnil, hp⟩ | ⟨x, t, hd, _, _, hp⟩ |
    ⟨x, t, s3, hd, hlive, hle, hp, hheap, hch3, hcnt3, ht3⟩
  · refine ⟨none, s2, hp, hfreed, fun _ => ⟨hch, hcnt⟩, ?_, ?_⟩
    · intro p h
      simp at h
    · intro _ hor
      rcases hor with h | h
      · rw [htail, if_pos ⟨h, hnil⟩]
      · simp at h
  · refine ⟨none, s2, hp, hfreed, fun _ => ⟨hch, hcnt⟩, ?_, ?_⟩
    · intro p h
      simp at h
    · intro hnone _
      rw [hd] at hch
      simp only [Chain] at hch
      rw [hnone] at hch
      simp at hch
  · refine ⟨some x.1, s3, hp, ?_, ?_, ?_, ?_⟩
    · intro y hy
      rw [hheap]
      exact hfreed y hy
    · intro h
      simp at h
    · intro p h
      have hpx : x.1 = p := Option.some.inj h
      subst hpx
      refine ⟨x.2, t, hd, hlive, hle, hch3, ?_⟩
      rw [hcnt3, hcnt, Function.iterate_succ_apply']
    · intro hnone _
      rw [ht3]
      have := (chain_cons_nil_iff hch3).1 hnone
      simp [this]

theorem tombstones_witness :
    ∃ res s1, aclk_queue_pop 9 deleted_alarm_queue = .ok (res, s1) ∧
      (∀ x ∈ [(0, { alarm_fields 5 with deleted := true })].takeWhile
          (fun x : Nat × query_fields => x.2.deleted), deref s1.heap x.1 = none) ∧
      (res = none →
        Chain s1.heap s1.aclk_query_head
          ([(0, { alarm_fields 5 with deleted := true })].dropWhile
            (fun x : Nat × query_fields => x.2.deleted)) ∧
        s1.count = count_dec^[([(0, { alarm_fields 5 with deleted := true })].takeWhile
          (fun x : Nat × query_fields => x.2.deleted)).length] deleted_alarm_queue.count) ∧
      (∀ p, res = some p →
        ∃ d t, [(0, { alarm_fields 5 with deleted := true })].dropWhile
            (fun x : Nat × query_fields => x.2.deleted) = (p, d) :: t ∧ d.deleted = false ∧
          d.run_after ≤ 9 ∧ Chain s1.heap s1.aclk_query_head t ∧
          s1.count = count_dec^[([(0, { alarm_fields 5 with deleted := true })].takeWhile
            (fun x : Nat × query_fields => x.2.deleted)).length + 1]
            deleted_alarm_queue.count) ∧
      (s1.aclk_query_head = none →
        ([(0, { alarm_fields 5 with deleted := true })].takeWhile
          (fun x : Nat × query_fields => x.2.deleted) ≠ [] ∨ res ≠ none) →
        s1.aclk_query_tail = none) :=
  (tombstones deleted_alarm_queue 9).2 [(0, { alarm_fields 5 with deleted := true })]
    ⟨rfl, _, rfl, rfl, rfl⟩

theorem encode_loop_append (keep : Bool) : ∀ (src dst : List Nat),
    encode_loop keep src dst = dst ++ (src.map (fun c => encode_step c keep)).flatten
  | [], dst => by simp [encode_loop]
  | c :: src, dst => by
    simp [encode_loop, encode_loop_append keep src, List.append_assoc]

theorem aclk_encode_response_eq (src : List Nat) (keep : Bool) :
    aclk_encode_response src keep = (src.map (fun c => encode_step c keep)).flatten ++ [0] := by
  simp [aclk_encode_response, encode_loop_append]

/-- C11, evaluated where it fails: for the byte 0x0F the encoder writes
`\u001F` (the test `*src < 0x0F` gives the digit `1` for 0x0F) where the claim
asks for `\u000F`; for every other byte of the two ranges it writes `\u00`
and the two uppercase hexadecimal digits of the byte. -/
theorem encode_control_0f :
    aclk_encode_response [15] false = [92, 117, 48, 48, 49, 70, 0] ∧
    aclk_encode_response [15] true = [92, 117, 48, 48, 49, 70, 0] ∧
    (∀ b keep, ((1 ≤ b ∧ b ≤ 8) ∨ (11 ≤ b ∧ b ≤ 31)) → b ≠ 15 →
      encode_step b keep = [92, 117, 48, 48, to_hex (b / 16), to_hex (b % 16)]) := by
  refine ⟨by decide, by decide, ?_⟩
  intro b keep hb hne
  have hlt : b < 32 := by omega
  interval_cases b <;> simp_all [encode_step, to_hex]

/-- C12, evaluated where it fails: the two bytes backslash and `n` are
written out unchanged, and a JSON decoder reads the output as the escape of a
newline, not as the two bytes the claim says it gives back. -/
theorem round_trip_backslash :
    aclk_encode_response [92, 110] false = [92, 110, 0] ∧
    json_string_decode (c_string (aclk_encode_response [92, 110] false)) = some [10] ∧
    round_trip_expected [92, 110] false = [92, 110] ∧
    json_string_decode (c_string (aclk_encode_response [92] true)) = none ∧
    json_string_decode (c_string (aclk_encode_response [15] true)) = some [31] := by
  refine ⟨by decide, by decide, by decide, by decide, by decide⟩

/-- C13, evaluated where it fails: for the empty input the closing `'\0'` is
written into a buffer of size 0; for the one byte 0x01 seven bytes are written
into a buffer of size 2; for one double quote three bytes are written into a
buffer of size 2. -/
theorem encode_buffer_overflow :
    (aclk_encode_response [] false).length = 1 ∧ encode_buffer_size 0 = 0 ∧
    (aclk_encode_response [1] false).length = 7 ∧ encode_buffer_size 1 = 2 ∧
    (aclk_encode_response [34] false).length = 3 := by
  refine ⟨by decide, by decide, by decide, by decide, by decide⟩

/-- C14 (mapping of the bytes that are not control bytes): the bytes that
`aclk_encode_response` writes are the images of the input bytes, one after the
other in the order of the input, followed by one `'\0'`; the image of a newline
is empty (flag 0) or backslash and `n` (flag set), the image of a tab is
empty, the image of a double quote is backslash and the quote, and every byte
outside 0x01..0x1F other than the quote (0x00, backslash and the bytes from
0x7F on among them) is its own image. -/
theorem encode_mapping (src : List Nat) (keep_newlines : Bool) :
    aclk_encode_response src keep_newlines
      = (src.map (fun c => encode_step c keep_newlines)).flatten ++ [0] ∧
    encode_step 10 keep_newlines = (if keep_newlines then [92, 110] else []) ∧
    encode_step 9 keep_newlines = [] ∧
    encode_step 34 keep_newlines = [92, 34] ∧
    (∀ b, (b = 0 ∨ 32 ≤ b) → b ≠ 34 → encode_step b keep_newlines = [b]) ∧
    encode_step 0 keep_newlines = [0] ∧ encode_step 92 keep_newlines = [92] ∧
    encode_step 127 keep_newlines = [127] ∧ encode_step 255 keep_newlines = [255] := by
  refine ⟨aclk_encode_response_eq src keep_newlines, by simp [encode_step],
    by simp [encode_step], by simp [encode_step], ?_, by simp [encode_step],
    by simp [encode_step], by simp [encode_step], by simp [encode_step]⟩
  intro b hb hne
  have h1 : b ≠ 10 := by omega
  have h2 : b ≠ 9 := by omega
  have h3 : ¬ ((1 ≤ b ∧ b ≤ 8) ∨ (11 ≤ b ∧ b ≤ 31)) := by omega
  simp [encode_step, h1, h2, h3, hne]

theorem encode_mapping_witness :
    aclk_encode_response [65, 9, 34, 10, 92] true = [65, 92, 34, 92, 110, 92, 0] ∧
    encode_step 92 true = [92] :=
  ⟨by decide, (encode_mapping [65, 9, 34, 10, 92] true).2.2.2.2.1 92 (by decide) (by decide)⟩

/-! ## The claims on popcorning and negotiation -/

/-- C15, as stated, fails: with a threshold of 3 seconds, a host that was
interrupted at 10 and is checked at 13 has waited exactly the threshold, which
does not exceed it, and yet becomes stable (the test is `t_diff >=
ACLK_STABLE_TIMEOUT`). -/
theorem popcorn_check_counterexample :
    ¬ ((13 : Int) - 10 > 3) ∧
    aclk_host_popcorn_check 3 13
        { state := .ACLK_HOST_INITIALIZING, t_last_popcorn_update := 10 }
      = (.ACLK_HOST_STABLE, { state := .ACLK_HOST_STABLE, t_last_popcorn_update := 0 }) := by
  refine ⟨by decide, by decide⟩

/-- C15 (popcorn check), amended: for a host in state `INITIALIZING` with a
set (non-zero) time stamp, `aclk_host_popcorn_check` at the time `now` sets
the state to `STABLE`, clears the time stamp and returns `STABLE` if the
elapsed time `now - timestamp` is at least `ACLK_STABLE_TIMEOUT`, and
otherwise (elapsed time below the threshold) leaves state and time stamp as
they are and returns `INITIALIZING`. -/
theorem popcorn_check_transition (ACLK_STABLE_TIMEOUT now : Int) (host : popcorn_state)
    (hstate : host.state = .ACLK_HOST_INITIALIZING)
    (hset : host.t_last_popcorn_update ≠ 0) :
    (ACLK_STABLE_TIMEOUT ≤ now - host.t_last_popcorn_update →
      aclk_host_popcorn_check ACLK_STABLE_TIMEOUT now host
        = (.ACLK_HOST_STABLE, { state := .ACLK_HOST_STABLE, t_last_popcorn_update := 0 })) ∧
    (now - host.t_last_popcorn_update < ACLK_STABLE_TIMEOUT →
      aclk_host_popcorn_check ACLK_STABLE_TIMEOUT now host
        = (.ACLK_HOST_INITIALIZING, host)) := by
  constructor
  · intro h
    simp [aclk_host_popcorn_check, hstate, hset, h]
  · intro h
    have hn : ¬ ACLK_STABLE_TIMEOUT ≤ now - host.t_last_popcorn_update := not_le.2 h
    simp [aclk_host_popcorn_check, hstate, hset, hn]

theorem popcorn_check_transition_witness :
    ((3 : Int) ≤ 13 - 10 →
      aclk_host_popcorn_check 3 13
          { state := .ACLK_HOST_INITIALIZING, t_last_popcorn_update := 10 }
        = (.ACLK_HOST_STABLE, { state := .ACLK_HOST_STABLE, t_last_popcorn_update := 0 })) ∧
    ((13 : Int) - 10 < 3 →
      aclk_host_popcorn_check 3 13
          { state := .ACLK_HOST_INITIALIZING, t_last_popcorn_update := 10 }
        = (.ACLK_HOST_INITIALIZING,
            { state := .ACLK_HOST_INITIALIZING, t_last_popcorn_update := 10 })) :=
  popcorn_check_transition 3 13
    { state := .ACLK_HOST_INITIALIZING, t_last_popcorn_update := 10 } rfl (by decide)

/-- C16, as stated, fails: with the version unset and the deadline field 0
(no deadline set), the clock value 5 is past the value of the field, and yet
the step leaves the version unset (the test is `!version_neg_wait_till ||
version_neg_wait_till > now`). -/
theorem negotiation_counterexample :
    (0 : Nat) ≤ 5 ∧
    negotiation_step 1 5 { version_neg := 0, version_neg_wait_till := 0 }
      = ({ version_neg := 0, version_neg_wait_till := 0 }, false) := by
  refine ⟨by decide, by decide⟩

/-- C16 (negotiation fallback), amended: with the version unset, the step
sets it to `ACLK_VERSION_MIN` when a deadline is set (the field is not 0) and
has passed at the time `now`; it leaves the version unset (and starts the
round over) when no deadline is set or the deadline is still ahead; and it
leaves a version that is set as it is, so that after the fallback (to a
version that is not 0) any number of further steps changes nothing. -/
theorem negotiation_fallback (ACLK_VERSION_MIN : Int) (now : Nat) (st : shared_state) :
    (st.version_neg = 0 → st.version_neg_wait_till ≠ 0 → st.version_neg_wait_till ≤ now →
      negotiation_step ACLK_VERSION_MIN now st
        = ({ st with version_neg := ACLK_VERSION_MIN }, true)) ∧
    (st.version_neg = 0 → (st.version_neg_wait_till = 0 ∨ now < st.version_neg_wait_till) →
      negotiation_step ACLK_VERSION_MIN now st = (st, false)) ∧
    (st.version_neg ≠ 0 → ∀ later : Nat,
      negotiation_step ACLK_VERSION_MIN later st = (st, true)) ∧
    (st.version_neg = 0 → st.version_neg_wait_till ≠ 0 → st.version_neg_wait_till ≤ now →
      ACLK_VERSION_MIN ≠ 0 → ∀ later : Nat,
      negotiation_step ACLK_VERSION_MIN later
          (negotiation_step ACLK_VERSION_MIN now st).1
        = ((negotiation_step ACLK_VERSION_MIN now st).1, true)) := by
  have h1 : st.version_neg = 0 → st.version_neg_wait_till ≠ 0 →
      st.version_neg_wait_till ≤ now →
      negotiation_step ACLK_VERSION_MIN now st
        = ({ st with version_neg := ACLK_VERSION_MIN }, true) := by
    intro hv hset hpast
    have hn : ¬ now < st.version_neg_wait_till := not_lt.2 hpast
    simp [negotiation_step, hv, hset, hn]
  refine ⟨h1, ?_, ?_, ?_⟩
  · intro hv hwait
    simp [negotiation_step, hv, hwait]
  · intro hv later
    simp [negotiation_step, hv]
  · intro hv hset hpast hmin later
    rw [h1 hv hset hpast]
    simp [negotiation_step, hmin]

theorem negotiation_fallback_witness :
    negotiation_step 1 9 { version_neg := 0, version_neg_wait_till := 7 }
      = ({ version_neg := 1, version_neg_wait_till := 7 }, true) :=
  (negotiation_fallback 1 9 { version_neg := 0, version_neg_wait_till := 7 }).1 rfl
    (by decide) (by decide)

/-- C17 (`STABLE` is absorbing): for a host whose state is `STABLE`,
`aclk_host_popcorn_check` returns `STABLE` and leaves the state and the time
stamp as they are, at any clock value; and for every host the value returned
is the state of the host after the call. -/
theorem popcorn_stable_absorbing (ACLK_STABLE_TIMEOUT now : Int) (host : popcorn_state) :
    (host.state = .ACLK_HOST_STABLE →
      aclk_host_popcorn_check ACLK_STABLE_TIMEOUT now host = (.ACLK_HOST_STABLE, host)) ∧
    (aclk_host_popcorn_check ACLK_STABLE_TIMEOUT now host).1
      = (aclk_host_popcorn_check ACLK_STABLE_TIMEOUT now host).2.state := by
  constructor
  · intro h
    simp [aclk_host_popcorn_check, h]
  · unfold aclk_host_popcorn_check
    simp only
    split
    · rfl
    · split
      · rfl
      · split <;> rfl

theorem popcorn_stable_absorbing_witness :
    aclk_host_popcorn_check 3 100
        { state := .ACLK_HOST_STABLE, t_last_popcorn_update := 0 }
      = (.ACLK_HOST_STABLE, { state := .ACLK_HOST_STABLE, t_last_popcorn_update := 0 }) :=
  (popcorn_stable_absorbing 3 100
    { state := .ACLK_HOST_STABLE, t_last_popcorn_update := 0 }).1 rfl

/-! ## The claims on command dispatch -/

theorem process_query_popped (now : Int) (localhost : Nat)
    (version_neg vmin vchild : Int) (st : DispatchState) (p : Nat) (q1 : QueueState)
    (r : aclk_query) (hpop : aclk_queue_pop now st.queue = .ok (some p, q1))
    (hr : deref q1.heap p = some r) :
    aclk_process_query true now localhost version_neg vmin vchild st
      = .ok (1,
          { queue := { q1 with heap := q1.heap.set p none }
            metadata := (dispatch localhost version_neg vmin vchild r.toquery_fields
              st.metadata st.sent).1
            sent := (dispatch localhost version_neg vmin vchild r.toquery_fields
              st.metadata st.sent).2 }) := by
  obtain ⟨r1, hr1, hlive⟩ := pop_never_deleted now st.queue q1 p hpop
  rw [hr] at hr1
  have hrr : r = r1 := Option.some.inj hr1
  subst hrr
  simp [aclk_process_query, hpop, load_of_deref hr, aclk_query_free, hlive]

/-- C18 (on-connect dispatch): when `aclk_process_query` pops an on-connect
record with a host, it returns 1 and frees the record; if the host is not
`localhost` and the negotiated version is below `ACLK_V_CHILDRENSTATE`, no
call to a sender is made and no Metadata Push State changes; in every other
case the Metadata Push State of that host becomes `SENT` and exactly one call
`aclk_send_metadata` is added, with the state the host had before.  (The
version test is in the build because `ACLK_VERSION_MIN` is below
`ACLK_V_CHILDRENSTATE`.) -/
theorem onconnect_dispatch (now : Int) (localhost : Nat)
    (version_neg ACLK_VERSION_MIN ACLK_V_CHILDRENSTATE : Int) (st : DispatchState) (p : Nat)
    (q1 : QueueState) (r : aclk_query)
    (hpop : aclk_queue_pop now st.queue = .ok (some p, q1))
    (hr : deref q1.heap p = some r)
    (hcmd : r.cmd = .ACLK_CMD_ONCONNECT) (hhost : r.data ≠ 0)
    (hcfg : ACLK_VERSION_MIN < ACLK_V_CHILDRENSTATE) :
    (r.data ≠ localhost ∧ version_neg < ACLK_V_CHILDRENSTATE →
      aclk_process_query true now localhost version_neg ACLK_VERSION_MIN
          ACLK_V_CHILDRENSTATE st
        = .ok (1, { queue := { q1 with heap := q1.heap.set p none }
                    metadata := st.metadata
                    sent := st.sent })) ∧
    (¬ (r.data ≠ localhost ∧ version_neg < ACLK_V_CHILDRENSTATE) →
      aclk_process_query true now localhost version_neg ACLK_VERSION_MIN
          ACLK_V_CHILDRENSTATE st
        = .ok (1, { queue := { q1 with heap := q1.heap.set p none }
                    metadata := Function.update st.metadata r.data .ACLK_METADATA_SENT
                    sent := st.sent ++ [.send_metadata (st.metadata r.data) r.data] })) := by
  have hproc := process_query_popped now localhost version_neg ACLK_VERSION_MIN
    ACLK_V_CHILDRENSTATE st p q1 r hpop hr
  have hcmd1 : r.toquery_fields.cmd = .ACLK_CMD_ONCONNECT := hcmd
  have hhost1 : r.toquery_fields.data ≠ 0 := hhost
  constructor
  · intro hchild
    have hd : r.toquery_fields.data ≠ localhost := hchild.1
    rw [hproc]
    simp [dispatch, hcmd1, hhost1, hcfg, hd, hchild.2]
  · intro hok
    have hd : ¬ (r.toquery_fields.data ≠ localhost ∧ version_neg < ACLK_V_CHILDRENSTATE) := hok
    have hcond : ¬ (ACLK_VERSION_MIN < ACLK_V_CHILDRENSTATE ∧ r.toquery_fields.data ≠ localhost
        ∧ version_neg < ACLK_V_CHILDRENSTATE) := fun h => hd h.2
    rw [hproc]
    simp only [dispatch, hcmd1, if_neg hhost1, if_neg hcond]

theorem onconnect_dispatch_witness :
    aclk_process_query true 0 4096 3 1 3
        { queue := onconnect_queue 4096
          metadata := fun _ => .ACLK_METADATA_CMD_QUEUED
          sent := [] }
      = .ok (1, { queue := { onconnect_popped 4096 with
                             heap := (onconnect_popped 4096).heap.set 0 none }
                  metadata := Function.update (fun _ => .ACLK_METADATA_CMD_QUEUED) 4096
                    .ACLK_METADATA_SENT
                  sent := [] ++ [.send_metadata .ACLK_METADATA_CMD_QUEUED 4096] }) :=
  (onconnect_dispatch 0 4096 3 1 3
    { queue := onconnect_queue 4096
      metadata := fun _ => .ACLK_METADATA_CMD_QUEUED
      sent := [] } 0 (onconnect_popped 4096)
    { run_after := 0, cmd := .ACLK_CMD_ONCONNECT, topic := "on_connect",
      data := 4096, msg_id := none, query := none, deleted := false, next := none }
    (by decide) rfl rfl (by decide) (by decide)).2 (by decide)

/-- C19 (structural errors): when `aclk_process_query` pops a record of a
host-scoped command kind (on-connect, chart update, chart delete, child
connect, child disconnect) that has no host, or a record of a command kind it
does not know, it makes no call to a sender, changes no Metadata Push State,
frees that record and leaves the queue as `aclk_queue_pop` left it, and
returns 1. -/
theorem structural_errors (now : Int) (localhost : Nat)
    (version_neg ACLK_VERSION_MIN ACLK_V_CHILDRENSTATE : Int) (st : DispatchState) (p : Nat)
    (q1 : QueueState) (r : aclk_query)
    (hpop : aclk_queue_pop now st.queue = .ok (some p, q1))
    (hr : deref q1.heap p = some r)
    (hbad : (r.data = 0 ∧
        (r.cmd = .ACLK_CMD_ONCONNECT ∨ r.cmd = .ACLK_CMD_CHART ∨ r.cmd = .ACLK_CMD_CHARTDEL ∨
          r.cmd = .ACLK_CMD_CHILD_CONNECT ∨ r.cmd = .ACLK_CMD_CHILD_DISCONNECT)) ∨
      ∃ code, r.cmd = .other code) :
    aclk_process_query true now localhost version_neg ACLK_VERSION_MIN ACLK_V_CHILDRENSTATE st
      = .ok (1, { queue := { q1 with heap := q1.heap.set p none }
                  metadata := st.metadata
                  sent := st.sent }) := by
  have hproc := process_query_popped now localhost version_neg ACLK_VERSION_MIN
    ACLK_V_CHILDRENSTATE st p q1 r hpop hr
  rw [hproc]
  rcases hbad with ⟨hhost, hcmd⟩ | ⟨code, hcmd⟩
  · have hhost1 : r.toquery_fields.data = 0 := hhost
    rcases hcmd with h | h | h | h | h
    all_goals
      have h1 : r.toquery_fields.cmd = _ := h
      simp [dispatch, h1, hhost1]
  · have h1 : r.toquery_fields.cmd = .other code := hcmd
    simp [dispatch, h1]

theorem structural_errors_witness :
    aclk_process_query true 0 4096 3 1 3
        { queue := onconnect_queue 0
          metadata := fun _ => .ACLK_METADATA_CMD_QUEUED
          sent := [] }
      = .ok (1, { queue := { onconnect_popped 0 with
                             heap := (onconnect_popped 0).heap.set 0 none }
                  metadata := fun _ => .ACLK_METADATA_CMD_QUEUED
                  sent := [] }) :=
  structural_errors 0 4096 3 1 3
    { queue := onconnect_queue 0
      metadata := fun _ => .ACLK_METADATA_CMD_QUEUED
      sent := [] } 0 (onconnect_popped 0)
    { run_after := 0, cmd := .ACLK_CMD_ONCONNECT, topic := "on_connect",
      data := 0, msg_id := none, query := none, deleted := false, next := none }
    (by decide) rfl (Or.inl ⟨rfl, Or.inl rfl⟩)

/-! ## The claims on cloud queries -/

theorem strstr_some (needle : List Char) : ∀ (text : List Char) (i : Nat),
    strstr text needle = some i → first_at needle text i
  | [], i, h => by
    simp only [strstr] at h
    split at h
    · rename_i hs
      simp only [Option.some.injEq] at h
      subst h
      exact ⟨⟨Nat.le_refl _, by simpa using hs⟩, fun j hj => absurd hj (Nat.not_lt_zero j)⟩
    · simp at h
  | c :: text, i, h => by
    simp only [strstr] at h
    split at h
    · rename_i hs
      simp only [Option.some.injEq] at h
      subst h
      exact ⟨⟨Nat.zero_le _, by simpa using hs⟩, fun j hj => absurd hj (Nat.not_lt_zero j)⟩
    · rename_i hs
      cases hrec : strstr text needle with
      | none => simp [hrec] at h
      | some k =>
        simp only [hrec, Option.map_some', Option.some.injEq] at h
        subst h
        obtain ⟨⟨hk1, hk2⟩, hk3⟩ := strstr_some needle text k hrec
        refine ⟨⟨by simp; omega, by simpa using hk2⟩, ?_⟩
        intro j hj hocc
        cases j with
        | zero => exact hs (by simpa using hocc.2)
        | succ j =>
          apply hk3 j (by omega)
          exact ⟨by have := hocc.1; simp at this; omega, by simpa using hocc.2⟩

theorem strstr_none (needle : List Char) : ∀ (text : List Char),
    strstr text needle = none → ∀ j, ¬ occurs_at needle text j
  | [], h, j, hocc => by
    simp only [strstr] at h
    split at h
    · simp at h
    · rename_i hs
      have hj : j = 0 := by have := hocc.1; simp at this; exact this
      subst hj
      exact hs (by simpa using hocc.2)
  | c :: text, h, j, hocc => by
    simp only [strstr] at h
    split at h
    · simp at h
    · rename_i hs
      have hrec : strstr text needle = none := by
        cases hr : strstr text needle with
        | none => rfl
        | some k => simp [hr] at h
      cases j with
      | zero => exact hs (by simpa using hocc.2)
      | succ j =>
        apply strstr_none needle text hrec j
        exact ⟨by have := hocc.1; simp at this; omega, by simpa using hocc.2⟩

theorem first_at_unique (needle text : List Char) (i j : Nat)
    (hi : first_at needle text i) (hj : first_at needle text j) : i = j := by
  rcases Nat.lt_trichotomy i j with h | h | h
  · exact absurd hi.1 (hj.2 i h)
  · exact h
  · exact absurd hj.1 (hi.2 j h)

theorem strstr_eq_some_iff (needle text : List Char) (i : Nat) :
    strstr text needle = some i ↔ first_at needle text i := by
  constructor
  · exact strstr_some needle text i
  · intro h
    cases hs : strstr text needle with
    | none => exact absurd h.1 (strstr_none needle text hs i)
    | some k =>
      have := first_at_unique needle text k i (strstr_some needle text k hs) h
      rw [this]

theorem gzip_before_crlf (text : List Char) (g e : Nat)
    (hg : occurs_at GZIP text g) (he : occurs_at CRLF text e) (hlt : g < e) :
    g + 4 ≤ e := by
  by_contra hcon
  have hdrop : text.drop e = (text.drop g).drop (e - g) := by
    rw [List.drop_drop]
    congr 1
    omega
  have h1 := hg.2
  have h2 := he.2
  rw [hdrop] at h2
  generalize text.drop g = d at h1 h2
  have hk : e - g = 1 ∨ e - g = 2 ∨ e - g = 3 := by omega
  match d, h1 with
  | a :: b :: c :: f :: tl, h1 =>
    have hchars : a = Char.ofNat 103 ∧ b = Char.ofNat 122 ∧ c = Char.ofNat 105 ∧
        f = Char.ofNat 112 := by
      simp only [GZIP, String.toList, starts_with, Bool.and_eq_true, decide_eq_true_eq] at h1
      obtain ⟨r1, r2, r3, r4, _⟩ := h1
      exact ⟨r1.symm, r2.symm, r3.symm, r4.symm⟩
    obtain ⟨_, rfl, rfl, rfl⟩ := hchars
    rcases hk with hk | hk | hk
    all_goals
      rw [hk] at h2
      revert h2
      cases tl with
      | nil => simp [CRLF, starts_with]
      | cons x tl => simp [CRLF, starts_with]
  | [], h1 => exact absurd h1 (by decide)
  | [_], h1 => exact absurd h1 (by simp [GZIP, String.toList, starts_with])
  | [_, _], h1 => exact absurd h1 (by simp [GZIP, String.toList, starts_with])
  | [_, _, _], h1 => exact absurd h1 (by simp [GZIP, String.toList, starts_with])

/-- C20, as stated, fails: the header `two_encoding_lines` contains the line
`Accept-Encoding: gzip` with its line end (at offset 21: the marker stands
there, the next line end is 5 characters after the marker and `gzip` stands
between the two), and yet compression is not selected, because only the first
marker of the text is looked at. -/
theorem gzip_counterexample :
    occurs_at ("Accept-Encoding: gzip".toList ++ CRLF) two_encoding_lines 21 ∧
    occurs_at WEB_HDR_ACCEPT_ENC two_encoding_lines 21 ∧
    first_at CRLF (two_encoding_lines.drop (21 + WEB_HDR_ACCEPT_ENC.length)) 5 ∧
    occurs_at GZIP (two_encoding_lines.drop (21 + WEB_HDR_ACCEPT_ENC.length)) 1 ∧
    gzip_requested two_encoding_lines = false := by
  refine ⟨⟨by decide, by decide⟩, ⟨by decide, by decide⟩, ?_, ⟨by decide, by decide⟩,
    by decide⟩
  exact strstr_some CRLF _ 5 (by decide)

/-- C20 (gzip acceptance), amended: the test of the v2 executor on the request
header is true if and only if the header contains the marker
`Accept-Encoding:` and, for the first place at which the marker stands, a line
end follows the marker and `gzip` (matched case-sensitively) stands between
the end of the marker and the first line end after it. -/
theorem gzip_acceptance (data : List Char) :
    gzip_requested data = true ↔
      ∃ i e g, first_at WEB_HDR_ACCEPT_ENC data i ∧
        first_at CRLF (data.drop (i + WEB_HDR_ACCEPT_ENC.length)) e ∧
        occurs_at GZIP (data.drop (i + WEB_HDR_ACCEPT_ENC.length)) g ∧
        g + 4 ≤ e := by
  constructor
  · intro h
    unfold gzip_requested at h
    cases hm : strstr data WEB_HDR_ACCEPT_ENC with
    | none => simp [hm] at h
    | some i =>
      simp only [hm] at h
      cases hg : strstr (data.drop (i + WEB_HDR_ACCEPT_ENC.length)) GZIP with
      | none => simp [hg] at h
      | some g =>
        cases he : strstr (data.drop (i + WEB_HDR_ACCEPT_ENC.length)) CRLF with
        | none => simp [hg, he] at h
        | some e =>
          simp only [hg, he, decide_eq_true_eq] at h
          have hfg := strstr_some _ _ _ hg
          have hfe := strstr_some _ _ _ he
          exact ⟨i, e, g, strstr_some _ _ _ hm, hfe, hfg.1,
            gzip_before_crlf _ g e hfg.1 hfe.1 h⟩
  · rintro ⟨i, e, g, hi, he, hg, hle⟩
    have hm := (strstr_eq_some_iff _ _ _).2 hi
    have hes := (strstr_eq_some_iff _ _ _).2 he
    unfold gzip_requested
    simp only [hm, hes]
    cases hgs : strstr (data.drop (i + WEB_HDR_ACCEPT_ENC.length)) GZIP with
    | none => exact absurd hg (strstr_none _ _ hgs g)
    | some g0 =>
      have hf := strstr_some _ _ _ hgs
      have hle0 : g0 ≤ g := by
        by_contra hcon
        exact hf.2 g (by omega) hg
      simp only [decide_eq_true_eq]
      omega

theorem gzip_acceptance_witness :
    gzip_requested ("Accept-Encoding: gzip".toList ++ CRLF) = true :=
  (gzip_acceptance ("Accept-Encoding: gzip".toList ++ CRLF)).2
    ⟨0, 5, 1, strstr_some _ _ 0 (by decide), strstr_some CRLF _ 5 (by decide),
      ⟨by decide, by decide⟩, by decide⟩

theorem strchr_take (c : Char) : ∀ (s : List Char),
    (match strchr s c with
     | some i => s.take i
     | none => s) = s.takeWhile (fun x => decide (x ≠ c))
  | [] => by simp [strchr]
  | x :: s => by
    have ih := strchr_take c s
    by_cases hx : x = c
    · simp [strchr, hx]
    · cases hs : strchr s c with
      | none =>
        rw [hs] at ih
        simp only at ih
        simp only [strchr, hx, hs, if_false, Option.map_none', List.takeWhile_cons, ne_eq,
          not_false_eq_true, decide_True, if_true]
        exact congrArg (List.cons x) ih
      | some i =>
        rw [hs] at ih
        simp only at ih
        simp only [strchr, hx, hs, if_false, Option.map_some', List.takeWhile_cons, ne_eq,
          not_false_eq_true, decide_True, if_true, List.take_succ_cons]
        exact congrArg (List.cons x) ih

theorem takeWhile_append_stop {α : Type} (p : α → Bool) (l1 l2 : List α) (x : α)
    (hall : ∀ y ∈ l1, p y = true) (hx : p x = false) :
    (l1 ++ x :: l2).takeWhile p = l1 := by
  induction l1 with
  | nil => simp [List.takeWhile_cons, hx]
  | cons y l1 ih =>
    have hy : p y = true := hall y (by simp)
    simp only [List.cons_append, List.takeWhile_cons, hy, if_true]
    rw [ih (fun z hz => hall z (List.mem_cons_of_mem _ hz))]

theorem takeWhile_append_of_mem {α : Type} (p : α → Bool) (l1 l2 : List α)
    (hex : ∃ y ∈ l1, p y = false) :
    (l1 ++ l2).takeWhile p = l1.takeWhile p := by
  induction l1 with
  | nil =>
    obtain ⟨y, hy, _⟩ := hex
    simp at hy
  | cons z l1 ih =>
    by_cases hz : p z = true
    · simp only [List.cons_append, List.takeWhile_cons, hz, if_true]
      congr 1
      apply ih
      obtain ⟨y, hy, hpy⟩ := hex
      rcases List.mem_cons.1 hy with rfl | hy
      · rw [hz] at hpy
        simp at hpy
      · exact ⟨y, hy, hpy⟩
    · simp [List.takeWhile_cons, hz]

theorem strrchr_spec (c : Char) : ∀ (p : List Char),
    (∀ j, strrchr p c = some j →
      c ∈ p ∧ p.drop (j + 1) = (p.reverse.takeWhile (fun x => decide (x ≠ c))).reverse) ∧
    (strrchr p c = none → c ∉ p)
  | [] => by simp [strrchr]
  | x :: p => by
    obtain ⟨ih1, ih2⟩ := strrchr_spec c p
    cases hs : strrchr p c with
    | some i =>
      obtain ⟨hm, hd⟩ := ih1 i hs
      constructor
      · intro j hj
        simp only [strrchr, hs, Option.some.injEq] at hj
        subst hj
        refine ⟨List.mem_cons_of_mem _ hm, ?_⟩
        rw [List.drop_succ_cons, hd, List.reverse_cons]
        rw [takeWhile_append_of_mem _ _ _ ⟨c, by simpa using hm, by simp⟩]
      · intro hn
        simp [strrchr, hs] at hn
    | none =>
      have hnot := ih2 hs
      by_cases hx : x = c
      · subst hx
        constructor
        · intro j hj
          simp only [strrchr, hs, if_true, Option.some.injEq] at hj
          subst hj
          refine ⟨by simp, ?_⟩
          rw [List.reverse_cons]
          rw [takeWhile_append_stop _ p.reverse [] x (by
            intro y hy
            have hyp : y ∈ p := by simpa using hy
            have : y ≠ x := fun h => hnot (h ▸ hyp)
            simpa using this) (by simp)]
          simp
        · intro hn
          simp [strrchr, hs] at hn
      · constructor
        · intro j hj
          simp [strrchr, hs, hx] at hj
        · intro _ hmem
          rcases List.mem_cons.1 hmem with h | h
          · exact hx h.symm
          · exact hnot h

theorem split_request_endpoint (query : List Char) :
    (split_request query).1 = endpoint_name query := by
  have hcut := strchr_take (Char.ofNat 63) query
  unfold split_request endpoint_name
  simp only
  have hpath : (match strchr query (Char.ofNat 63) with
      | some i => (query.take i, query.drop i)
      | none => (query, query)).1 = query.takeWhile (fun c => decide (c ≠ Char.ofNat 63)) := by
    rw [← hcut]
    cases strchr query (Char.ofNat 63) <;> rfl
  rw [hpath]
  obtain ⟨h1, h2⟩ := strrchr_spec (Char.ofNat 47)
    (query.takeWhile (fun c => decide (c ≠ Char.ofNat 63)))
  cases hs : strrchr (query.takeWhile (fun c => decide (c ≠ Char.ofNat 63))) (Char.ofNat 47) with
  | some j =>
    obtain ⟨hm, hd⟩ := h1 j hs
    simp only [if_pos hm]
    exact hd
  | none =>
    have hm := h2 hs
    simp only [if_neg hm]

/-- C21, as stated, fails for the first executor: for the query
`/info?verbose`, which does not begin with `/api/v1/`, `aclk_execute_query`
returns 1 without a call of the query engine, although the path has the final
segment `info`. -/
theorem endpoint_counterexample :
    aclk_execute_query_request 1024 "/info?verbose".toList = none ∧
    endpoint_name "/info?verbose".toList = "info".toList := by
  refine ⟨by decide, by decide⟩

/-- C21 (endpoint extraction), amended: the second executor, for every query
string, and the first executor, for every query string that begins with
`/api/v1/` (any other query is not executed), cut the query at the first `?`
and pass to the query engine, as the name of the endpoint, the text after the
last `/` of the part before the first `?` (a `/` behind the `?` plays no
part), or `noop` when that part has no `/`. -/
theorem endpoint_extraction (url_decode_r : List Char → List Char)
    (NETDATA_WEB_REQUEST_URL_SIZE : Nat) (query : List Char) :
    (aclk_execute_query_v2_request url_decode_r query).1 = endpoint_name query ∧
    (starts_with "/api/v1/".toList query = true →
      ∃ decoded_query_string,
        aclk_execute_query_request NETDATA_WEB_REQUEST_URL_SIZE query
          = some (endpoint_name query, decoded_query_string)) ∧
    (starts_with "/api/v1/".toList query = false →
      aclk_execute_query_request NETDATA_WEB_REQUEST_URL_SIZE query = none) := by
  refine ⟨split_request_endpoint query, ?_, ?_⟩
  · intro h
    refine ⟨(split_request query).2.take NETDATA_WEB_REQUEST_URL_SIZE, ?_⟩
    simp only [aclk_execute_query_request, h, if_true, split_request_endpoint]
  · intro h
    unfold aclk_execute_query_request
    rw [if_neg (by rw [h]; exact Bool.false_ne_true)]

theorem endpoint_extraction_witness :
    (∃ decoded_query_string,
      aclk_execute_query_request 1024 "/api/v1/data?chart=a/b".toList
        = some (endpoint_name "/api/v1/data?chart=a/b".toList, decoded_query_string)) ∧
    endpoint_name "/api/v1/data?chart=a/b".toList = "data".toList ∧
    endpoint_name "data?chart=a/b".toList = "noop".toList :=
  ⟨(endpoint_extraction id 1024 "/api/v1/data?chart=a/b".toList).2.1 (by decide),
    by decide, by decide⟩

/-- C22, evaluated where it fails: after one record is queued on the empty
queue the head points to it and the tail pointer is still `NULL`; indeed the
tail pointer is `NULL` in every reachable state, as it is only ever set by
`aclk_queue_query` when the place found is the record the tail points to. -/
theorem tail_never_set :
    Reachable one_alarm_queue ∧
    one_alarm_queue.aclk_query_head = some 0 ∧
    one_alarm_queue.aclk_query_tail = none ∧
    (∀ s, Reachable s → s.aclk_query_tail = none) := by
  refine ⟨one_alarm_queue_reachable, rfl, rfl, ?_⟩
  intro s h
  obtain ⟨l, hinv⟩ := reachable_inv s h
  exact hinv.2.1

theorem chart_queue_tombstone_chain :
    Chain chart_queue_tombstone.heap chart_queue_tombstone.aclk_query_head
      [(1, { chart_fields 4096 10 with deleted := true }), (2, chart_fields 12288 15),
        (0, chart_fields 0 20)] :=
  ⟨rfl, _, rfl, rfl, rfl, _, rfl, rfl, rfl, _, rfl, rfl, rfl⟩

theorem chart_queue_tombstone_ordered :
    Ordered [(1, { chart_fields 4096 10 with deleted := true }), (2, chart_fields 12288 15),
        (0, chart_fields 0 20)] := by
  simp [Ordered, chart_fields]

/-- C23 (no ready record behind a deferred head): take a queue whose linked
records `l` are in the order of their `run_after`.  `aclk_queue_pop` at the
clock value `now` returns on it.  When it returns `NULL`, the records linked
afterwards are exactly the records of `l` behind the leading deleted ones (the
purge removes those and nothing else), every one of them has `run_after > now`,
and so no record of `l` that is not deleted is due.  Conversely, when some
record of `l` that is not deleted is due, the call returns a record: the first
one that is not deleted, and that one is due. -/
theorem no_ready_record_stalled (s : QueueState) (now : Int)
    (l : List (Nat × query_fields)) (hc : Chain s.heap s.aclk_query_head l)
    (ho : Ordered l) :
    (∃ res s1, aclk_queue_pop now s = .ok (res, s1)) ∧
    (∀ s1, aclk_queue_pop now s = .ok (none, s1) →
      Chain s1.heap s1.aclk_query_head (l.dropWhile (fun x => x.2.deleted)) ∧
      (∀ x ∈ l.dropWhile (fun x => x.2.deleted), now < x.2.run_after) ∧
      (∀ x ∈ l, x.2.deleted = false → now < x.2.run_after) ∧
      (∀ l1, Chain s1.heap s1.aclk_query_head l1 → ∀ x ∈ l1, x ∈ l ∧ now < x.2.run_after)) ∧
    ((∃ x ∈ l, x.2.deleted = false ∧ x.2.run_after ≤ now) →
      ∃ x t s1, l.dropWhile (fun x => x.2.deleted) = x :: t ∧ x.2.deleted = false ∧
        x.2.run_after ≤ now ∧ aclk_queue_pop now s = .ok (some x.1, s1) ∧
        Chain s1.heap s1.aclk_query_head t) := by
  obtain ⟨s2, _, hch, _, _, _, _, _, hcases⟩ := aclk_queue_pop_spec now s l hc
  have hod : Ordered (l.dropWhile (fun x => x.2.deleted)) :=
    List.Pairwise.sublist (List.dropWhile_sublist _) ho
  have hsplit : ∀ x ∈ l, x.2.deleted = false → x ∈ l.dropWhile (fun x => x.2.deleted) := by
    intro x hx hlive
    rw [← List.takeWhile_append_dropWhile (fun x : Nat × query_fields => x.2.deleted) l] at hx
    rcases List.mem_append.1 hx with h | h
    · have := List.mem_takeWhile_imp h
      simp only at this
      rw [hlive] at this
      exact absurd this (by simp)
    · exact h
  have hdefer : ∀ x t, l.dropWhile (fun x => x.2.deleted) = x :: t → now < x.2.run_after →
      ∀ y ∈ l.dropWhile (fun x => x.2.deleted), now < y.2.run_after := by
    intro x t hd hlt y hy
    rw [hd] at hy hod
    rcases List.mem_cons.1 hy with rfl | hy
    · exact hlt
    · exact lt_of_lt_of_le hlt ((List.pairwise_cons.1 hod).1 y hy)
  rcases hcases with ⟨hnil, hp⟩ | ⟨x, t, hd, _, hlt, hp⟩ | ⟨x, t, s3, hd, hlive, hle, hp, _, hch3, _⟩
  · refine ⟨⟨none, s2, hp⟩, ?_, ?_⟩
    · intro s1 hpop
      rw [hp] at hpop
      simp only [Except.ok.injEq, Prod.mk.injEq, true_and] at hpop
      subst hpop
      have hall : ∀ x ∈ l.dropWhile (fun x => x.2.deleted), now < x.2.run_after := by
        intro y hy
        rw [hnil] at hy
        simp at hy
      refine ⟨hch, hall, fun y hy hl => hall y (hsplit y hy hl), ?_⟩
      intro l1 hc1 y hy
      rw [chain_functional _ _ _ hc1 hch] at hy
      exact ⟨(List.dropWhile_sublist _).subset hy, hall y hy⟩
    · rintro ⟨y, hy, hl, _⟩
      have := hsplit y hy hl
      rw [hnil] at this
      simp at this
  · refine ⟨⟨none, s2, hp⟩, ?_, ?_⟩
    · intro s1 hpop
      rw [hp] at hpop
      simp only [Except.ok.injEq, Prod.mk.injEq, true_and] at hpop
      subst hpop
      have hall := hdefer x t hd hlt
      refine ⟨hch, hall, fun y hy hl => hall y (hsplit y hy hl), ?_⟩
      intro l1 hc1 y hy
      rw [chain_functional _ _ _ hc1 hch] at hy
      exact ⟨(List.dropWhile_sublist _).subset hy, hall y hy⟩
    · rintro ⟨y, hy, hl, hle⟩
      exact absurd (hdefer x t hd hlt y (hsplit y hy hl)) (not_lt.2 hle)
  · refine ⟨⟨some x.1, s3, hp⟩, ?_, ?_⟩
    · intro s1 hpop
      rw [hp] at hpop
      simp at hpop
    · intro _
      exact ⟨x, t, s3, hd, hlive, hle, hp, hch3⟩

theorem no_ready_record_stalled_witness :
    aclk_queue_pop 12 chart_queue_tombstone = .ok (none, chart_queue_purged) ∧
    Chain chart_queue_purged.heap chart_queue_purged.aclk_query_head
      [(2, chart_fields 12288 15), (0, chart_fields 0 20)] ∧
    ((∃ res s1, aclk_queue_pop 12 chart_queue_tombstone = .ok (res, s1)) ∧
    (∀ s1, aclk_queue_pop 12 chart_queue_tombstone = .ok (none, s1) →
      Chain s1.heap s1.aclk_query_head
        ([(1, { chart_fields 4096 10 with deleted := true }), (2, chart_fields 12288 15),
          (0, chart_fields 0 20)].dropWhile (fun x => x.2.deleted)) ∧
      (∀ x ∈ [(1, { chart_fields 4096 10 with deleted := true }), (2, chart_fields 12288 15),
          (0, chart_fields 0 20)].dropWhile (fun x => x.2.deleted), 12 < x.2.run_after) ∧
      (∀ x ∈ [(1, { chart_fields 4096 10 with deleted := true }), (2, chart_fields 12288 15),
          (0, chart_fields 0 20)], x.2.deleted = false → 12 < x.2.run_after) ∧
      (∀ l1, Chain s1.heap s1.aclk_query_head l1 → ∀ x ∈ l1,
        x ∈ [(1, { chart_fields 4096 10 with deleted := true }), (2, chart_fields 12288 15),
          (0, chart_fields 0 20)] ∧ 12 < x.2.run_after))) ∧
    ∃ x t s1,
      [(1, { chart_fields 4096 10 with deleted := true }), (2, chart_fields 12288 15),
        (0, chart_fields 0 20)].dropWhile (fun x => x.2.deleted) = x :: t ∧
      x.2.deleted = false ∧ x.2.run_after ≤ 17 ∧
      aclk_queue_pop 17 chart_queue_tombstone = .ok (some x.1, s1) ∧
      Chain s1.heap s1.aclk_query_head t :=
  ⟨by decide, ⟨rfl, _, rfl, rfl, rfl, _, rfl, rfl, rfl⟩,
    ⟨(no_ready_record_stalled chart_queue_tombstone 12 _ chart_queue_tombstone_chain
        chart_queue_tombstone_ordered).1,
      (no_ready_record_stalled chart_queue_tombstone 12 _ chart_queue_tombstone_chain
        chart_queue_tombstone_ordered).2.1⟩,
    (no_ready_record_stalled chart_queue_tombstone 17 _ chart_queue_tombstone_chain
        chart_queue_tombstone_ordered).2.2
      ⟨(2, chart_fields 12288 15), by simp, rfl, by decide⟩⟩

/-- C24, evaluated where it fails.  `one_alarm_queue` holds an alarm queued by
an internal caller, so the record has no `msg_id`; a search for the same
topic and query with a `msg_id` compares that `msg_id` against the `NULL` of
the record.  And the queue that holds the `on_connect` command, which has no
query, is searched for the topic `on_connect` with a query: the query is
compared against the `NULL` of the record.  Both queues are reachable. -/
theorem find_reads_null_string :
    Reachable one_alarm_queue ∧
    aclk_query_find one_alarm_queue "alarm/1" 0 (some "m1") (some "alarm text")
      .ACLK_CMD_CLOUD = .error .null_string ∧
    Reachable (onconnect_queue 4096) ∧
    aclk_query_find (onconnect_queue 4096) "on_connect" 0 none (some "/api/v1/info")
      .ACLK_CMD_CLOUD = .error .null_string := by
  refine ⟨one_alarm_queue_reachable, by decide, ?_, by decide⟩
  exact Reachable.enqueue aclk_queue_init (onconnect_queue 4096) true 0 "on_connect" 4096 none
    none 0 true .ACLK_CMD_ONCONNECT 0 Reachable.init (by decide)

end AclkQuery
